import Mathlib

/-!
Verification development for the PowerShell AST Inspector extension.

This file gives a shallow embedding of the core algorithmic parts of the
extension and proves the specified properties about them:

* the JavaScript string primitives used by the runner (`split`, `includes`,
  `trim`, `substring`), modelled on the character list of a `String`;
* the session runner `PowerShellRunner` (stdout framing, stderr heuristic,
  pending-request queue, crash handling and lazy respawn), modelled as a
  state machine driven by an explicit event trace;
* the tree builder `PowerShellAstAnalyzer.buildTreeFromFlatData`, modelled
  with an insertion-ordered association list standing for the JavaScript
  `Map`, the produced object graph being represented by the map together
  with per-key child lists and the root list;
* the node locator loop of the `revealNodeForSelection` command;
* the truncation helper `AstProperty.TrimString` of `AstParse.ps1` and the
  error handling of `PowerShellAstAnalyzer.analyzeContent`.
-/

/-- Model of the ECMAScript `String.prototype.split` scanner for a non-empty
separator, on character lists.  The fuel argument is an upper bound on the
number of characters still to scan; callers pass the length of the scanned
list, which makes the fallback `[cs]` branch unreachable. -/
def jsSplitAux (sep : List Char) : Nat → List Char → List (List Char)
  | _, [] => [[]]
  | 0, cs => [cs]
  | fuel+1, c :: cs =>
    if sep.isPrefixOf (c :: cs) then
      [] :: jsSplitAux sep fuel ((c :: cs).drop sep.length)
    else
      match jsSplitAux sep fuel cs with
      | [] => [c :: cs]
      | h :: t => (c :: h) :: t

/-- Model of `s.split(sep)` for a string separator.  Faithful to JavaScript
for non-empty separators (the only use in the source is the constant
sentinel).  Splits at every non-overlapping occurrence, scanning from the
left. -/
def jsSplit (s sep : String) : List String :=
  if sep.data.isEmpty then [s]
  else (jsSplitAux sep.data s.data.length s.data).map (fun cs => String.mk cs)

/-- Model of `s.includes(sub)` for a non-empty search string: the split at
`sub` has more than one part exactly when `sub` occurs in `s`. -/
def jsIncludes (s sub : String) : Bool :=
  decide ((jsSplit s sub).length > 1)

/-- Model of `s.trim()`: removes leading and trailing whitespace. -/
def jsTrim (s : String) : String :=
  String.mk (((s.data.dropWhile Char.isWhitespace).reverse.dropWhile Char.isWhitespace).reverse)

/-- Model of `s.substring(start, stop)` (also of .NET `Substring` used with a
start index and a length when `start = 0`): the characters with indices in
`[start, stop)`. -/
def jsSubstring (s : String) (start stop : Nat) : String :=
  String.mk ((s.data.take stop).drop start)

/-- Wire form of one AST property, from the `AstProperty` interface of
`extension.ts` and the `AstProperty` class of `AstParse.ps1`. -/
structure AstProperty where
  Name : String
  Value : String
  TypeName : String
deriving DecidableEq, Repr

/-- Wire form of one serialized AST node, from the `FlatAstNode` interface of
`extension.ts`.  The in-memory `PowerShellAstNode` produced by the first pass
of `buildTreeFromFlatData` copies exactly these fields (renaming
`StartLineNumber` to `startLine` and so on) and adds a `children` array; we
keep a single record for the payload and represent the `children` arrays
separately, keyed by `hashCode`, in `BuiltForest`. -/
structure SerializedNode where
  id : String
  hashCode : Int
  parentHashCode : Option Int
  type : String
  text : String
  extentString : String
  startLine : Nat
  startColumn : Nat
  endLine : Nat
  endColumn : Nat
  textLength : Nat
  properties : List AstProperty
deriving DecidableEq, Repr

/-- Model of `Map.prototype.set`: a JavaScript `Map` preserves insertion
order, and setting an existing key updates the value in place without moving
the key. -/
def jsMapSet {α : Type} (m : List (Int × α)) (k : Int) (v : α) : List (Int × α) :=
  if m.any (fun e => decide (e.1 = k)) then
    m.map (fun e => if e.1 = k then (k, v) else e)
  else m ++ [(k, v)]

/-- Model of `Map.prototype.get` (as an `Option`). -/
def jsMapGet {α : Type} (m : List (Int × α)) (k : Int) : Option α :=
  (m.find? (fun e => decide (e.1 = k))).map (fun e => e.2)

/-- Key list of a modelled JavaScript `Map`, in insertion order. -/
def jsMapKeys {α : Type} (m : List (Int × α)) : List Int :=
  m.map (fun e => e.1)

/-- First pass of `buildTreeFromFlatData` (extension.ts lines 566-587):
convert each flat node and register it in the hash-code map. -/
def buildNodeMap (flatData : List SerializedNode) : List (Int × SerializedNode) :=
  flatData.foldl (fun m nd => jsMapSet m nd.hashCode nd) []

/-- Lookup of the child list recorded for a key in the child-list table;
yields `[]` when the key has no entry. -/
def cLookup (cs : List (Int × List Int)) (q : Int) : List Int :=
  match cs.find? (fun e => decide (e.1 = q)) with
  | some e => e.2
  | none => []

/-- Append a child hash to the child list of the entry keyed `p`
(models `parent.children.push(node)`). -/
def appendChild (cs : List (Int × List Int)) (p c : Int) : List (Int × List Int) :=
  cs.map (fun e => if e.1 = p then (e.1, e.2 ++ [c]) else e)

/-- One step of the second pass of `buildTreeFromFlatData` (extension.ts
lines 589-606): a node with no parent reference is pushed onto the root
list; otherwise the parent is looked up in the node map and, when found, the
node is appended to its child list; when not found the node is dropped. -/
def linkStep (nodeMap : List (Int × SerializedNode)) (acc : List Int × List (Int × List Int))
    (e : Int × SerializedNode) : List Int × List (Int × List Int) :=
  match e.2.parentHashCode with
  | none => (acc.1 ++ [e.1], acc.2)
  | some p =>
    match jsMapGet nodeMap p with
    | some _ => (acc.1, appendChild acc.2 p e.1)
    | none => acc

/-- Result of `buildTreeFromFlatData`, describing the produced object graph:
the node map keyed by hash code (each key standing for the one tree-node
object allocated for it), the list of root keys (the returned array), and
the child list of every map entry. -/
structure BuiltForest where
  nodeMap : List (Int × SerializedNode)
  roots : List Int
  children : List (Int × List Int)
deriving DecidableEq, Repr

/-- Model of `PowerShellAstAnalyzer.buildTreeFromFlatData` (extension.ts
lines 561-609).  Every tree node starts with an empty child list; the
second pass iterates the map entries in insertion order. -/
def buildTreeFromFlatData (flatData : List SerializedNode) : BuiltForest :=
  if flatData.isEmpty then ⟨[], [], []⟩
  else
    let nodeMap := buildNodeMap flatData
    let res := nodeMap.foldl (linkStep nodeMap) ([], nodeMap.map (fun e => (e.1, [])))
    ⟨nodeMap, res.1, res.2⟩

/-- Child list of the tree node keyed `h` in the built forest. -/
def childrenOf (bf : BuiltForest) (h : Int) : List Int :=
  cLookup bf.children h

/-- Depth-bounded pre-order traversal of a forest given by a child-list
function: emit a root, then its subtree, then the remaining roots. -/
def preord (f : Int → List Int) : Nat → List Int → List Int
  | 0, _ => []
  | d+1, ws => ws.flatMap (fun x => x :: preord f d (f x))

/-- Pre-order list of the node keys reachable from the roots of the built
forest.  The depth bound `bf.nodeMap.length` is sufficient for every forest
whose parent references are acyclic. -/
def preorderHashes (bf : BuiltForest) : List Int :=
  preord (childrenOf bf) bf.nodeMap.length bf.roots

/-- Number of nodes of the built forest (nodes reachable from the returned
roots through `children`). -/
def forestSize (bf : BuiltForest) : Nat :=
  (preorderHashes bf).length

/-- Pre-order flattening of the built forest back to serialized nodes. -/
def preorderNodes (bf : BuiltForest) : List SerializedNode :=
  (preorderHashes bf).filterMap (jsMapGet bf.nodeMap)

/-- Identity hashes of a serialized node list, in order. -/
def keysOf (L : List SerializedNode) : List Int :=
  L.map (fun nd => nd.hashCode)

/-- Hashes of the nodes of `L` with no parent reference, in order. -/
def rootsOf (L : List SerializedNode) : List Int :=
  (L.filter (fun nd => nd.parentHashCode.isNone)).map (fun nd => nd.hashCode)

/-- Hashes of the nodes of `L` whose parent reference is `p`, in order. -/
def childListOf (L : List SerializedNode) (p : Int) : List Int :=
  (L.filter (fun nd => decide (nd.parentHashCode = some p))).map (fun nd => nd.hashCode)

/-- Parent hash of the first node of `L` carrying the identity hash `h`. -/
def parentOf (L : List SerializedNode) (h : Int) : Option Int :=
  match L.find? (fun nd => decide (nd.hashCode = h)) with
  | some nd => nd.parentHashCode
  | none => none

/-- Iterated parent: follow `parentOf` for `k` steps. -/
def iterParent (L : List SerializedNode) : Nat → Int → Option Int
  | 0, h => some h
  | k+1, h =>
    match parentOf L h with
    | none => none
    | some p => iterParent L k p

/-- Strict ancestorship: `x` is reached from `z` by at least one parent step. -/
def Anc (L : List SerializedNode) (x z : Int) : Prop :=
  ∃ k, iterParent L (k+1) z = some x

/-- Reflexive ancestorship. -/
def AncEq (L : List SerializedNode) (x z : Int) : Prop :=
  z = x ∨ Anc L x z

/-- Sentinel appended to every command sent by the runner
(`PowerShellRunner.invoke`). -/
def sentinel : String := "__END_OF_COMMAND__"

/-- State of a `PowerShellRunner` instance: the two accumulation buffers,
the FIFO queue of pending request callbacks (represented by request
identifiers), the process handle (alive or not) and the disposed flag.  The
`settled` list records, in order, the requests that were dequeued and
resolved (`Except.ok`) or rejected (`Except.error`); `refused` records
`invoke` calls that threw immediately because the runner was disposed. -/
structure RunnerState where
  currentData : String
  currentError : String
  pending : List Nat
  processAlive : Bool
  disposed : Bool
  settled : List (Nat × Except String String)
  refused : List Nat
deriving Repr

/-- Model of `PowerShellRunner.resolveCurrentCommand` (lines 166-183): shift
the oldest pending callback; if the stderr buffer is non-blank and the
stdout buffer is blank, reject with the stderr text, otherwise resolve with
the trimmed stdout text. -/
def resolveCurrentCommand (st : RunnerState) : RunnerState :=
  match st.pending with
  | [] => st
  | h :: rest =>
    if st.currentError ≠ "" ∧ jsTrim st.currentError ≠ "" then
      if jsTrim st.currentData = "" then
        { st with pending := rest, settled := st.settled ++ [(h, Except.error st.currentError)] }
      else
        { st with pending := rest, settled := st.settled ++ [(h, Except.ok (jsTrim st.currentData))] }
    else
      { st with pending := rest, settled := st.settled ++ [(h, Except.ok (jsTrim st.currentData))] }

/-- Model of `PowerShellRunner.rejectCurrentCommand` (lines 185-190). -/
def rejectCurrentCommand (st : RunnerState) (msg : String) : RunnerState :=
  match st.pending with
  | [] => st
  | h :: rest =>
    { st with pending := rest, settled := st.settled ++ [(h, Except.error msg)] }

/-- Model of the stdout data handler installed by
`PowerShellRunner.startProcess` (lines 93-107): the sentinel is searched in
the arriving chunk; on a hit the chunk is split, the part before the first
occurrence is appended to the buffer, the current command is resolved, and
the part after the first occurrence replaces the buffer when it is
non-blank.  A chunk without the sentinel is appended to the buffer. -/
def onStdoutData (st : RunnerState) (chunk : String) : RunnerState :=
  if jsIncludes chunk sentinel then
    let parts := jsSplit chunk sentinel
    let st1 := { st with currentData := st.currentData ++ parts.headI }
    let st2 := resolveCurrentCommand st1
    if parts.length > 1 ∧ (jsTrim ((parts[1]?).getD "")).length > 0 then
      { st2 with currentData := (parts[1]?).getD "" }
    else st2
  else
    { st with currentData := st.currentData ++ chunk }

/-- Model of the stderr data handler (lines 109-116): accumulate only. -/
def onStderrData (st : RunnerState) (chunk : String) : RunnerState :=
  { st with currentError := st.currentError ++ chunk }

/-- Model of `PowerShellRunner.invoke` (lines 135-164): a disposed runner
throws immediately; a runner whose process is gone restarts it; then the
callback is enqueued and both buffers are reset. -/
def invokeStep (st : RunnerState) (id : Nat) : RunnerState :=
  if st.disposed then { st with refused := st.refused ++ [id] }
  else
    let st1 := if st.processAlive then st else { st with processAlive := true }
    { st1 with pending := st1.pending ++ [id], currentData := "", currentError := "" }

/-- Events driving one runner instance: an `invoke` call, a stdout or stderr
chunk from the process, a process `error` event, a process `exit` event, or
a `dispose` call. -/
inductive RunnerEvent where
  | invoke (id : Nat)
  | stdoutData (chunk : String)
  | stderrData (chunk : String)
  | procError (msg : String)
  | procExit (code : Int)
  | dispose

/-- One step of the runner state machine.  The `exit` handler (lines
123-127) clears the process handle and then rejects the oldest pending
callback; the `error` handler (lines 118-121) rejects without clearing the
handle; `dispose` (lines 192-198) kills the process. -/
def runnerStep (st : RunnerState) (e : RunnerEvent) : RunnerState :=
  match e with
  | RunnerEvent.invoke id => invokeStep st id
  | RunnerEvent.stdoutData c => onStdoutData st c
  | RunnerEvent.stderrData c => onStderrData st c
  | RunnerEvent.procError m => rejectCurrentCommand st m
  | RunnerEvent.procExit code =>
    rejectCurrentCommand { st with processAlive := false }
      ("PowerShell process exited unexpectedly with code " ++ toString code)
  | RunnerEvent.dispose => { st with disposed := true, processAlive := false }

/-- State of a freshly constructed runner (the constructor calls
`startProcess`). -/
def initialRunnerState : RunnerState :=
  { currentData := "", currentError := "", pending := [], processAlive := true,
    disposed := false, settled := [], refused := [] }

/-- Run an event trace from the fresh-runner state. -/
def runEvents (evs : List RunnerEvent) : RunnerState :=
  evs.foldl runnerStep initialRunnerState

/-- Identifiers of the `invoke` calls of a trace that are enqueued (the
runner not yet disposed), in submission order; the flag carries whether
`dispose` has already happened. -/
def enqueuedIds : List RunnerEvent → Bool → List Nat
  | [], _ => []
  | RunnerEvent.invoke id :: es, d => if d then enqueuedIds es d else id :: enqueuedIds es d
  | RunnerEvent.dispose :: es, _ => enqueuedIds es true
  | _ :: es, d => enqueuedIds es d

/-- Containment test of the node locator (extension.ts lines 965-970): the
position is at or after the node start and at or before the node end,
compared by line first and column second, inclusively at both ends. -/
def containsPos (nd : SerializedNode) (line column : Nat) : Bool :=
  decide ((nd.startLine < line ∨ (nd.startLine = line ∧ nd.startColumn ≤ column)) ∧
          (line < nd.endLine ∨ (nd.endLine = line ∧ column ≤ nd.endColumn)))

/-- One iteration of the locator loop (extension.ts lines 964-976): a
containing node replaces the candidate when there is none yet or when its
text length is at most the candidate's. -/
def locateStep (line column : Nat) (found : Option SerializedNode) (nd : SerializedNode) :
    Option SerializedNode :=
  if containsPos nd line column then
    match found with
    | none => some nd
    | some f => if nd.textLength ≤ f.textLength then some nd else some f
  else found

/-- Model of the node search of the `revealNodeForSelection` command
(extension.ts lines 962-976), scanning the node index values in order. -/
def locateNode (nodes : List SerializedNode) (line column : Nat) : Option SerializedNode :=
  nodes.foldl (locateStep line column) none

/-- Model of `AstProperty.TrimString` (AstParse.ps1 lines 56-65): the empty
string stays empty, a string within the cap is returned unchanged, a longer
string is cut to the cap and an ellipsis marker is appended. -/
def TrimString (s : String) (maxChars : Nat) : String :=
  if s.length = 0 then ""
  else if s.length ≤ maxChars then s
  else String.mk (s.data.take maxChars) ++ "..."

/-- Node text rendering (AstParse.ps1 line 113): capped at 100 characters. -/
def trimNodeText (t : String) : String := TrimString t 100

/-- Stringified property value (AstParse.ps1 lines 46-54): capped at 200
characters via the one-argument `TrimString` overload. -/
def trimPropertyValue (v : String) : String := TrimString v 200

/-- Shape of the JSON value produced by parsing the PowerShell output: the
total-failure object `{error:true, message, type}` or a flat node list. -/
inductive ParsedJson where
  | errorObj (message : String) (etype : String)
  | flat (nodes : List SerializedNode)

/-- Value returned by the outer catch of `analyzeContent`: the empty node
array. -/
def emptyForestResult : BuiltForest := ⟨[], [], []⟩

/-- Inner computation of `PowerShellAstAnalyzer.analyzeContent`
(extension.ts lines 533-553), after the PowerShell output `raw` is
available; `parseJson` stands for `JSON.parse`, whose failure text is the
stringified exception.  A blank output throws; an `{error:true}` response
throws with the message field, and that throw is caught by the JSON-failure
handler which wraps it together with a 200-character excerpt of the raw
output. -/
def analyzeInner (parseJson : String → Except String ParsedJson) (raw : String) :
    Except String BuiltForest :=
  if jsTrim raw = "" then Except.error "No output returned from PowerShell script"
  else
    match parseJson raw with
    | Except.error msg =>
        Except.error ("JSON parsing failed: " ++ msg ++ ". Raw output: " ++
          jsSubstring raw 0 200 ++ "...")
    | Except.ok (ParsedJson.errorObj message _) =>
        Except.error ("JSON parsing failed: Error: PowerShell parsing error: " ++ message ++
          ". Raw output: " ++ jsSubstring raw 0 200 ++ "...")
    | Except.ok (ParsedJson.flat nodes) => Except.ok (buildTreeFromFlatData nodes)

/-- Model of `analyzeContent` as observed by its caller (extension.ts lines
518-559): the outer catch turns every internal error into a user-visible
error message and a normal empty result, so the returned promise always
resolves.  The second component is the message passed to
`showErrorMessage`, if any. -/
def analyzeContent (parseJson : String → Except String ParsedJson) (raw : String) :
    Except String BuiltForest × Option String :=
  match analyzeInner parseJson raw with
  | Except.ok v => (Except.ok v, none)
  | Except.error e =>
    (Except.ok emptyForestResult, some ("Failed to analyze PowerShell AST: Error: " ++ e))

example : jsSplit "hello__END_OF_COMMAND__x" sentinel = ["hello", "x"] := rfl
example : jsSplit "hello\n__END_OF_COMMAND__\n" sentinel = ["hello\n", "\n"] := rfl
example : jsSplit "a__END_OF_COMMAND__b__END_OF_COMMAND__c" sentinel = ["a", "b", "c"] := rfl
example : jsIncludes "abc" sentinel = false := rfl
example : jsTrim "  hi \n" = "hi" := rfl
example : jsTrim "\n" = "" := rfl

example :
    (runEvents [RunnerEvent.invoke 0, RunnerEvent.invoke 1,
      RunnerEvent.stdoutData "hello\n__END_OF_COMMAND__\n",
      RunnerEvent.stdoutData "world\n__END_OF_COMMAND__\n"]).settled =
    [(0, Except.ok "hello"), (1, Except.ok "hello\nworld")] := rfl

example :
    (runEvents [RunnerEvent.invoke 0, RunnerEvent.procExit 1, RunnerEvent.invoke 1,
      RunnerEvent.stdoutData "ok__END_OF_COMMAND__"]).settled =
    [(0, Except.error "PowerShell process exited unexpectedly with code 1"),
     (1, Except.ok "ok")] := rfl

example :
    forestSize (buildTreeFromFlatData
      [{ id := "node_1", hashCode := 1, parentHashCode := some 2, type := "", text := "",
         extentString := "", startLine := 1, startColumn := 1, endLine := 1, endColumn := 1,
         textLength := 0, properties := [] },
       { id := "node_2", hashCode := 2, parentHashCode := some 1, type := "", text := "",
         extentString := "", startLine := 1, startColumn := 1, endLine := 1, endColumn := 1,
         textLength := 0, properties := [] }]) = 0 := by decide

example :
    preorderHashes (buildTreeFromFlatData
      [{ id := "node_1", hashCode := 1, parentHashCode := none, type := "", text := "",
         extentString := "", startLine := 1, startColumn := 1, endLine := 1, endColumn := 1,
         textLength := 0, properties := [] },
       { id := "node_2", hashCode := 2, parentHashCode := some 1, type := "", text := "",
         extentString := "", startLine := 1, startColumn := 1, endLine := 1, endColumn := 1,
         textLength := 0, properties := [] },
       { id := "node_3", hashCode := 3, parentHashCode := some 1, type := "", text := "",
         extentString := "", startLine := 1, startColumn := 1, endLine := 1, endColumn := 1,
         textLength := 0, properties := [] }]) = [1, 2, 3] := by decide

/-! Helper lemmas about strings and the runner. -/

lemma string_eq_empty_of_length_eq_zero (s : String) (h : s.length = 0) : s = "" := by
  cases s with
  | mk data =>
    cases data with
    | nil => rfl
    | cons c cs => simp [String.length] at h

lemma string_length_pos_iff_ne_empty (s : String) : 0 < s.length ↔ s ≠ "" := by
  cases s with
  | mk data =>
    cases data with
    | nil => simp [String.length]
    | cons c cs =>
      constructor
      · intro _ h
        have h2 : (String.mk (c :: cs)).data = ("" : String).data := by rw [h]
        simp at h2
      · intro _
        simp [String.length]

/-- Resolution of the oldest pending request in the success cases: a blank
stderr buffer, or a non-blank stdout buffer, leads to `Except.ok` with the
trimmed stdout text. -/
lemma resolveCurrentCommand_ok (st : RunnerState) (h : Nat) (t : List Nat)
    (hp : st.pending = h :: t)
    (hc : jsTrim st.currentError = "" ∨ jsTrim st.currentData ≠ "") :
    resolveCurrentCommand st =
      { st with pending := t, settled := st.settled ++ [(h, Except.ok (jsTrim st.currentData))] } := by
  rcases st with ⟨cd, ce, p, pa, dp, sl, rf⟩
  simp only at hp
  subst hp
  simp only [resolveCurrentCommand]
  by_cases hcond : ce ≠ "" ∧ jsTrim ce ≠ ""
  · rw [if_pos hcond]
    have hd : ¬ jsTrim cd = "" := by
      rcases hc with h1 | h2
      · exact absurd h1 hcond.2
      · exact h2
    rw [if_neg hd]
  · rw [if_neg hcond]

/-- Resolution of the oldest pending request in the failure case: non-blank
stderr and blank stdout lead to `Except.error` with the raw stderr text. -/
lemma resolveCurrentCommand_err (st : RunnerState) (h : Nat) (t : List Nat)
    (hp : st.pending = h :: t)
    (he : st.currentError ≠ "") (he2 : jsTrim st.currentError ≠ "")
    (hd : jsTrim st.currentData = "") :
    resolveCurrentCommand st =
      { st with pending := t, settled := st.settled ++ [(h, Except.error st.currentError)] } := by
  rcases st with ⟨cd, ce, p, pa, dp, sl, rf⟩
  simp only at hp he he2 hd
  subst hp
  simp only [resolveCurrentCommand]
  rw [if_pos ⟨he, he2⟩, if_pos hd]

/-- C7.  Session Runner stderr heuristic: when a response is framed and the
oldest pending request is dequeued by `resolveCurrentCommand`, a non-blank
stderr buffer together with a blank stdout buffer rejects the request with
the stderr text; in every other case the request resolves successfully with
the trimmed stdout text, even when stderr is non-empty. -/
theorem c7_stderr_heuristic (st : RunnerState) (h : Nat) (t : List Nat)
    (hp : st.pending = h :: t) :
    ((st.currentError ≠ "" ∧ jsTrim st.currentError ≠ "" ∧ jsTrim st.currentData = "") →
      resolveCurrentCommand st = { st with pending := t, settled := st.settled ++ [(h, Except.error st.currentError)] }) ∧
    ((jsTrim st.currentError = "" ∨ jsTrim st.currentData ≠ "") →
      resolveCurrentCommand st = { st with pending := t, settled := st.settled ++ [(h, Except.ok (jsTrim st.currentData))] }) := by
  constructor
  · rintro ⟨h1, h2, h3⟩
    exact resolveCurrentCommand_err st h t hp h1 h2 h3
  · intro hc
    exact resolveCurrentCommand_ok st h t hp hc

/-- Witness for C7 at concrete states: a request with stderr text and blank
stdout is rejected with the stderr text; a request with both stdout and
stderr resolves with the trimmed stdout. -/
theorem c7_witness :
    resolveCurrentCommand ⟨" ", "boom", [3], true, false, [], []⟩ =
      ⟨" ", "boom", [], true, false, [(3, Except.error "boom")], []⟩ ∧
    resolveCurrentCommand ⟨" out ", "warn", [4], true, false, [], []⟩ =
      ⟨" out ", "warn", [], true, false, [(4, Except.ok "out")], []⟩ := by
  constructor
  · exact (c7_stderr_heuristic ⟨" ", "boom", [3], true, false, [], []⟩ 3 [] rfl).1
      ⟨by decide, by decide, rfl⟩
  · exact (c7_stderr_heuristic ⟨" out ", "warn", [4], true, false, [], []⟩ 4 [] rfl).2
      (Or.inr (by decide))

/-- C8.  Crash and lazy respawn: a process `error` or `exit` event rejects
the oldest pending request (if any) with a description of the cause, the
`exit` event clears the process handle without respawning, and the next
`invoke` call on a non-disposed runner without a process restarts the
process and enqueues the request; the concrete trace shows the first
request rejected by the exit and a later request succeeding after the lazy
restart. -/
theorem c8_crash_respawn :
    (∀ (st : RunnerState) (h : Nat) (t : List Nat) (code : Int), st.pending = h :: t →
      runnerStep st (RunnerEvent.procExit code) =
        { st with processAlive := false, pending := t, settled := st.settled ++ [(h, Except.error ("PowerShell process exited unexpectedly with code " ++ toString code))] }) ∧
    (∀ (st : RunnerState) (h : Nat) (t : List Nat) (msg : String), st.pending = h :: t →
      runnerStep st (RunnerEvent.procError msg) =
        { st with pending := t, settled := st.settled ++ [(h, Except.error msg)] }) ∧
    (∀ (st : RunnerState) (id : Nat), st.disposed = false → st.processAlive = false →
      runnerStep st (RunnerEvent.invoke id) =
        { st with processAlive := true, pending := st.pending ++ [id], currentData := "", currentError := "" }) ∧
    ((runEvents [RunnerEvent.invoke 0, RunnerEvent.procExit 1]).processAlive = false ∧
     (runEvents [RunnerEvent.invoke 0, RunnerEvent.procExit 1, RunnerEvent.invoke 1,
        RunnerEvent.stdoutData "ok__END_OF_COMMAND__"]).settled =
      [(0, Except.error "PowerShell process exited unexpectedly with code 1"),
       (1, Except.ok "ok")]) := by
  refine ⟨?_, ?_, ?_, rfl, rfl⟩
  · intro st h t code hp
    rcases st with ⟨cd, ce, p, pa, dp, sl, rf⟩
    simp only at hp
    subst hp
    simp only [runnerStep, rejectCurrentCommand]
  · intro st h t msg hp
    rcases st with ⟨cd, ce, p, pa, dp, sl, rf⟩
    simp only at hp
    subst hp
    simp only [runnerStep, rejectCurrentCommand]
  · intro st id hdisp halive
    rcases st with ⟨cd, ce, p, pa, dp, sl, rf⟩
    simp only at hdisp halive
    subst hdisp
    subst halive
    simp only [runnerStep, invokeStep]
    simp

/-- Witness for C8: the rejection part applied at a concrete state, and the
lazy-respawn part applied at a concrete dead-process state. -/
theorem c8_witness :
    runnerStep ⟨"", "", [7], true, false, [], []⟩ (RunnerEvent.procExit 1) =
      ⟨"", "", [], false, false,
        [(7, Except.error "PowerShell process exited unexpectedly with code 1")], []⟩ ∧
    runnerStep ⟨"", "", [], false, false, [], []⟩ (RunnerEvent.invoke 9) =
      ⟨"", "", [9], true, false, [], []⟩ := by
  constructor
  · exact c8_crash_respawn.1 ⟨"", "", [7], true, false, [], []⟩ 7 [] 1 rfl
  · exact c8_crash_respawn.2.2.1 ⟨"", "", [], false, false, [], []⟩ 9 rfl rfl

/-- C10.  Truncation rule of `AstParse.ps1`: node text renderings are capped
at 100 characters and stringified property values at 200 characters; a
string at or under its cap is emitted unchanged, and a longer string is
emitted as exactly its first 100 (respectively 200) characters followed by
the ellipsis marker. -/
theorem c10_truncation (s : String) :
    (s.length ≤ 100 → trimNodeText s = s) ∧
    (100 < s.length →
      trimNodeText s = String.mk (s.data.take 100) ++ "..." ∧
      (String.mk (s.data.take 100)).length = 100) ∧
    (s.length ≤ 200 → trimPropertyValue s = s) ∧
    (200 < s.length →
      trimPropertyValue s = String.mk (s.data.take 200) ++ "..." ∧
      (String.mk (s.data.take 200)).length = 200) := by
  have hlen : s.length = s.data.length := rfl
  refine ⟨?_, ?_, ?_, ?_⟩
  · intro h
    unfold trimNodeText TrimString
    by_cases h0 : s.length = 0
    · rw [if_pos h0, string_eq_empty_of_length_eq_zero s h0]
    · rw [if_neg h0, if_pos h]
  · intro h
    have h0 : ¬ s.length = 0 := by omega
    have h1 : ¬ s.length ≤ 100 := by omega
    refine ⟨?_, ?_⟩
    · unfold trimNodeText TrimString
      rw [if_neg h0, if_neg h1]
    · have h2 : (String.mk (s.data.take 100)).length = (s.data.take 100).length := rfl
      rw [h2, List.length_take]
      omega
  · intro h
    unfold trimPropertyValue TrimString
    by_cases h0 : s.length = 0
    · rw [if_pos h0, string_eq_empty_of_length_eq_zero s h0]
    · rw [if_neg h0, if_pos h]
  · intro h
    have h0 : ¬ s.length = 0 := by omega
    have h1 : ¬ s.length ≤ 200 := by omega
    refine ⟨?_, ?_⟩
    · unfold trimPropertyValue TrimString
      rw [if_neg h0, if_neg h1]
    · have h2 : (String.mk (s.data.take 200)).length = (s.data.take 200).length := rfl
      rw [h2, List.length_take]
      omega

set_option maxRecDepth 8000 in
/-- Witness for C10: a 250-character property value is emitted as exactly
its first 200 characters followed by the ellipsis marker. -/
theorem c10_witness :
    200 < (String.mk (List.replicate 250 'a')).length ∧
    trimPropertyValue (String.mk (List.replicate 250 'a')) =
      String.mk ((String.mk (List.replicate 250 'a')).data.take 200) ++ "..." ∧
    (String.mk ((String.mk (List.replicate 250 'a')).data.take 200)).length = 200 :=
  ⟨by decide, (c10_truncation (String.mk (List.replicate 250 'a'))).2.2.2 (by decide)⟩

/-- C9 counterexample: when the external parser signals total parse failure,
`analyzeContent` does not reject; it returns the normal empty result to its
caller and only surfaces the message through the editor error popup. -/
theorem c9_counterexample :
    analyzeContent (fun _ => Except.ok (ParsedJson.errorObj "boom" "ParseError")) "raw-output" =
      (Except.ok emptyForestResult,
       some "Failed to analyze PowerShell AST: Error: JSON parsing failed: Error: PowerShell parsing error: boom. Raw output: raw-output...") ∧
    (analyzeContent (fun _ => Except.ok (ParsedJson.errorObj "boom" "ParseError")) "raw-output").1 ≠
      Except.error "PowerShell parsing error: boom" := by
  refine ⟨rfl, ?_⟩
  intro h
  rw [show (analyzeContent (fun _ => Except.ok (ParsedJson.errorObj "boom" "ParseError")) "raw-output").1 = Except.ok emptyForestResult from rfl] at h
  exact Except.noConfusion h

/-- C9 amended: on a total parse failure reported by the external parser,
the inner computation of `analyzeContent` raises an error carrying the
message field (wrapped by the JSON-failure handler), but the outermost
catch swallows it: the caller receives a normal empty result, and the
message is surfaced only through the user-visible error popup. -/
theorem c9_analyze_error_swallowed (parseJson : String → Except String ParsedJson)
    (raw m ty : String) (hraw : jsTrim raw ≠ "")
    (hparse : parseJson raw = Except.ok (ParsedJson.errorObj m ty)) :
    analyzeInner parseJson raw =
      Except.error ("JSON parsing failed: Error: PowerShell parsing error: " ++ m ++ ". Raw output: " ++ jsSubstring raw 0 200 ++ "...") ∧
    analyzeContent parseJson raw =
      (Except.ok emptyForestResult,
       some ("Failed to analyze PowerShell AST: Error: " ++ ("JSON parsing failed: Error: PowerShell parsing error: " ++ m ++ ". Raw output: " ++ jsSubstring raw 0 200 ++ "..."))) := by
  have h1 : analyzeInner parseJson raw =
      Except.error ("JSON parsing failed: Error: PowerShell parsing error: " ++ m ++ ". Raw output: " ++ jsSubstring raw 0 200 ++ "...") := by
    unfold analyzeInner
    rw [if_neg hraw, hparse]
  refine ⟨h1, ?_⟩
  unfold analyzeContent
  rw [h1]

/-- Witness for C9 at a concrete parser outcome. -/
theorem c9_witness :
    analyzeContent (fun _ => Except.ok (ParsedJson.errorObj "bad token" "ParseError")) "output" =
      (Except.ok emptyForestResult,
       some "Failed to analyze PowerShell AST: Error: JSON parsing failed: Error: PowerShell parsing error: bad token. Raw output: output...") := by
  exact (c9_analyze_error_swallowed (fun _ => Except.ok (ParsedJson.errorObj "bad token" "ParseError"))
    "output" "bad token" "ParseError" (by decide) rfl).2

/-- C1 counterexample: the sentinel is searched in each arriving chunk, not
in the rolling buffer.  Starting from a state whose buffer already holds
the first half of the sentinel, the arrival of the second half leaves the
pending request unresolved even though the buffer now contains the full
sentinel token, contradicting the claimed buffer-based framing. -/
theorem c1_counterexample :
    (onStdoutData ⟨"__END_OF_", "", [0], true, false, [], []⟩ "COMMAND__").settled = [] ∧
    (onStdoutData ⟨"__END_OF_", "", [0], true, false, [], []⟩ "COMMAND__").pending = [0] ∧
    (onStdoutData ⟨"__END_OF_", "", [0], true, false, [], []⟩ "COMMAND__").currentData = "__END_OF_COMMAND__" ∧
    jsIncludes ((onStdoutData ⟨"__END_OF_", "", [0], true, false, [], []⟩ "COMMAND__").currentData) sentinel = true :=
  ⟨rfl, rfl, rfl, rfl⟩

/-- C1 amended: sentinel detection is applied to each arriving stdout chunk
in isolation.  A chunk without the sentinel only extends the buffer (so a
sentinel split across two chunks resolves nothing); a chunk containing the
sentinel appends the part before its first occurrence to the buffer,
resolves the oldest pending request with the trimmed buffer, and replaces
the buffer with the segment after the first occurrence only when that
segment is non-blank (otherwise the consumed text stays in the buffer until
the next `invoke` resets it). -/
theorem c1_chunkwise_framing (st : RunnerState) (chunk : String) (h : Nat) (t : List Nat) :
    (jsIncludes chunk sentinel = false →
      onStdoutData st chunk = { st with currentData := st.currentData ++ chunk }) ∧
    (jsIncludes chunk sentinel = true → st.pending = h :: t → jsTrim st.currentError = "" →
      ((onStdoutData st chunk).settled =
        st.settled ++ [(h, Except.ok (jsTrim (st.currentData ++ (jsSplit chunk sentinel).headI)))] ∧
       (onStdoutData st chunk).pending = t ∧
       (onStdoutData st chunk).currentData =
        (if jsTrim (((jsSplit chunk sentinel)[1]?).getD "") ≠ ""
         then ((jsSplit chunk sentinel)[1]?).getD ""
         else st.currentData ++ (jsSplit chunk sentinel).headI))) := by
  constructor
  · intro hinc
    simp [onStdoutData, hinc]
  · intro hinc hp herr
    have hparts : (jsSplit chunk sentinel).length > 1 := of_decide_eq_true hinc
    have hres : resolveCurrentCommand { st with currentData := st.currentData ++ (jsSplit chunk sentinel).headI } = { st with currentData := st.currentData ++ (jsSplit chunk sentinel).headI, pending := t, settled := st.settled ++ [(h, Except.ok (jsTrim (st.currentData ++ (jsSplit chunk sentinel).headI)))] } := by
      exact resolveCurrentCommand_ok _ h t (by simp [hp]) (Or.inl (by simp [herr]))
    by_cases hrem : jsTrim (((jsSplit chunk sentinel)[1]?).getD "") ≠ ""
    · have hlen : (jsTrim (((jsSplit chunk sentinel)[1]?).getD "")).length > 0 := by
        rw [gt_iff_lt, string_length_pos_iff_ne_empty]
        exact hrem
      rw [if_pos hrem]
      simp only [onStdoutData, hinc, if_true, if_pos (And.intro hparts hlen), hres]
      exact ⟨trivial, trivial, trivial⟩
    · have hlen : ¬ (jsTrim (((jsSplit chunk sentinel)[1]?).getD "")).length > 0 := by
        rw [gt_iff_lt, string_length_pos_iff_ne_empty]
        exact hrem
      have hcond : ¬ ((jsSplit chunk sentinel).length > 1 ∧
          (jsTrim (((jsSplit chunk sentinel)[1]?).getD "")).length > 0) := by
        intro hc
        exact hlen hc.2
      rw [if_neg hrem]
      simp only [onStdoutData, hinc, if_true, if_neg hcond, hres]
      exact ⟨trivial, trivial, trivial⟩

/-- Witness for C1 at a concrete state and chunk: a chunk carrying buffered
text plus the sentinel resolves the pending request with the accumulated
text. -/
theorem c1_witness :
    jsIncludes "def__END_OF_COMMAND__" sentinel = true ∧
    (onStdoutData ⟨"abc", "", [5], true, false, [], []⟩ "def__END_OF_COMMAND__").settled =
      [(5, Except.ok "abcdef")] := by
  constructor
  · rfl
  · exact ((c1_chunkwise_framing ⟨"abc", "", [5], true, false, [], []⟩
      "def__END_OF_COMMAND__" 5 []).2 rfl rfl rfl).1

/-- Dequeue-resolve preserves the concatenation of settled identifiers and
pending identifiers. -/
lemma resolveCurrentCommand_queue (st : RunnerState) :
    (resolveCurrentCommand st).settled.map Prod.fst ++ (resolveCurrentCommand st).pending =
      st.settled.map Prod.fst ++ st.pending := by
  rcases st with ⟨cd, ce, p, pa, dp, sl, rf⟩
  cases p with
  | nil => rfl
  | cons h t =>
    simp only [resolveCurrentCommand]
    split
    · split
      · simp
      · simp
    · simp

lemma resolveCurrentCommand_disposed (st : RunnerState) :
    (resolveCurrentCommand st).disposed = st.disposed := by
  rcases st with ⟨cd, ce, p, pa, dp, sl, rf⟩
  cases p with
  | nil => rfl
  | cons h t =>
    simp only [resolveCurrentCommand]
    split
    · split
      · rfl
      · rfl
    · rfl

/-- Dequeue-reject preserves the concatenation of settled identifiers and
pending identifiers. -/
lemma rejectCurrentCommand_queue (st : RunnerState) (msg : String) :
    (rejectCurrentCommand st msg).settled.map Prod.fst ++ (rejectCurrentCommand st msg).pending =
      st.settled.map Prod.fst ++ st.pending := by
  rcases st with ⟨cd, ce, p, pa, dp, sl, rf⟩
  cases p with
  | nil => rfl
  | cons h t => simp [rejectCurrentCommand]

lemma rejectCurrentCommand_disposed (st : RunnerState) (msg : String) :
    (rejectCurrentCommand st msg).disposed = st.disposed := by
  rcases st with ⟨cd, ce, p, pa, dp, sl, rf⟩
  cases p with
  | nil => rfl
  | cons h t => rfl

/-- The stdout handler preserves the concatenation of settled identifiers
and pending identifiers. -/
lemma onStdoutData_queue (st : RunnerState) (c : String) :
    (onStdoutData st c).settled.map Prod.fst ++ (onStdoutData st c).pending =
      st.settled.map Prod.fst ++ st.pending := by
  unfold onStdoutData
  by_cases hinc : jsIncludes c sentinel = true
  · rw [if_pos hinc]
    by_cases hrem : (jsSplit c sentinel).length > 1 ∧
        (jsTrim (((jsSplit c sentinel)[1]?).getD "")).length > 0
    · rw [if_pos hrem]
      exact resolveCurrentCommand_queue _
    · rw [if_neg hrem]
      exact resolveCurrentCommand_queue _
  · rw [if_neg hinc]

lemma onStdoutData_disposed (st : RunnerState) (c : String) :
    (onStdoutData st c).disposed = st.disposed := by
  unfold onStdoutData
  by_cases hinc : jsIncludes c sentinel = true
  · rw [if_pos hinc]
    by_cases hrem : (jsSplit c sentinel).length > 1 ∧
        (jsTrim (((jsSplit c sentinel)[1]?).getD "")).length > 0
    · rw [if_pos hrem]
      exact resolveCurrentCommand_disposed _
    · rw [if_neg hrem]
      exact resolveCurrentCommand_disposed _
  · rw [if_neg hinc]

/-- FIFO invariant of the runner state machine, for an arbitrary starting
state: the settled identifiers followed by the still-pending identifiers
are exactly the starting queue extended by the identifiers enqueued along
the trace. -/
lemma runner_fifo_aux (evs : List RunnerEvent) (st : RunnerState) :
    (evs.foldl runnerStep st).settled.map Prod.fst ++ (evs.foldl runnerStep st).pending =
      st.settled.map Prod.fst ++ st.pending ++ enqueuedIds evs st.disposed := by
  induction evs generalizing st with
  | nil => simp [enqueuedIds]
  | cons e es ih =>
    cases e with
    | invoke id =>
      cases hd : st.disposed with
      | true =>
        have hstep : runnerStep st (RunnerEvent.invoke id) = { st with refused := st.refused ++ [id] } := by
          simp [runnerStep, invokeStep, hd]
        rw [List.foldl_cons, hstep, ih]
        simp [enqueuedIds, hd]
      | false =>
        have hstep : runnerStep st (RunnerEvent.invoke id) = { st with pending := st.pending ++ [id], currentData := "", currentError := "", processAlive := true } := by
          cases ha : st.processAlive with
          | true =>
            rcases st with ⟨cd, ce, p, pa, dp, sl, rf⟩
            simp only at hd ha
            subst hd
            subst ha
            simp [runnerStep, invokeStep]
          | false =>
            rcases st with ⟨cd, ce, p, pa, dp, sl, rf⟩
            simp only at hd ha
            subst hd
            subst ha
            simp [runnerStep, invokeStep]
        rw [List.foldl_cons, hstep, ih]
        simp [enqueuedIds, hd]
    | stdoutData c =>
      rw [List.foldl_cons]
      show (es.foldl runnerStep (onStdoutData st c)).settled.map Prod.fst ++ (es.foldl runnerStep (onStdoutData st c)).pending = _
      rw [ih, onStdoutData_queue, onStdoutData_disposed]
      rfl
    | stderrData c =>
      rw [List.foldl_cons]
      show (es.foldl runnerStep (onStderrData st c)).settled.map Prod.fst ++ (es.foldl runnerStep (onStderrData st c)).pending = _
      rw [ih]
      rfl
    | procError m =>
      rw [List.foldl_cons]
      show (es.foldl runnerStep (rejectCurrentCommand st m)).settled.map Prod.fst ++ (es.foldl runnerStep (rejectCurrentCommand st m)).pending = _
      rw [ih, rejectCurrentCommand_queue, rejectCurrentCommand_disposed]
      rfl
    | procExit code =>
      rw [List.foldl_cons]
      show (es.foldl runnerStep (rejectCurrentCommand { st with processAlive := false } _)).settled.map Prod.fst ++ (es.foldl runnerStep (rejectCurrentCommand { st with processAlive := false } _)).pending = _
      rw [ih, rejectCurrentCommand_queue, rejectCurrentCommand_disposed]
      rfl
    | dispose =>
      rw [List.foldl_cons]
      show (es.foldl runnerStep { st with disposed := true, processAlive := false }).settled.map Prod.fst ++ (es.foldl runnerStep { st with disposed := true, processAlive := false }).pending = _
      rw [ih]
      simp [enqueuedIds]

/-- C2 counterexample: two pipelined invokes.  The futures do resolve in
submission order and the first receives exactly its own output, but the
second future resolves with the accumulated buffer, which still contains
the first command's output (the buffer is only reset by `invoke`, never
when a response is resolved): its payload contains "hello", the other
command's output, refuting per-command output isolation. -/
theorem c2_counterexample :
    (runEvents [RunnerEvent.invoke 0, RunnerEvent.invoke 1,
      RunnerEvent.stdoutData "hello\n__END_OF_COMMAND__\n",
      RunnerEvent.stdoutData "world\n__END_OF_COMMAND__\n"]).settled =
      [(0, Except.ok "hello"), (1, Except.ok "hello\nworld")] ∧
    jsIncludes "hello\nworld" "hello" = true ∧
    "hello\nworld" ≠ "world" :=
  ⟨rfl, rfl, by decide⟩

/-- C2 amended: requests settle strictly in submission order (the settled
identifiers followed by the pending ones always equal the enqueued
identifiers in order), and in the two-command scenario the first future
resolves with "hello" while the second resolves with the accumulated
"hello\nworld" rather than with its own output alone. -/
theorem c2_fifo_order :
    (∀ evs : List RunnerEvent,
      (runEvents evs).settled.map Prod.fst ++ (runEvents evs).pending = enqueuedIds evs false) ∧
    (runEvents [RunnerEvent.invoke 0, RunnerEvent.invoke 1,
      RunnerEvent.stdoutData "hello\n__END_OF_COMMAND__\n",
      RunnerEvent.stdoutData "world\n__END_OF_COMMAND__\n"]).settled =
      [(0, Except.ok "hello"), (1, Except.ok "hello\nworld")] := by
  constructor
  · intro evs
    have h := runner_fifo_aux evs initialRunnerState
    simpa [runEvents, initialRunnerState] using h
  · rfl

/-- The locator step yields `none` exactly when the candidate was `none` and
the scanned node does not contain the position. -/
lemma locateStep_eq_none (l c : Nat) (acc : Option SerializedNode) (x : SerializedNode) :
    locateStep l c acc x = none ↔ acc = none ∧ containsPos x l c = false := by
  cases acc with
  | none =>
    cases hc : containsPos x l c with
    | false => simp [locateStep, hc]
    | true => simp [locateStep, hc]
  | some f =>
    cases hc : containsPos x l c with
    | false => simp [locateStep, hc]
    | true =>
      by_cases hxf : x.textLength ≤ f.textLength
      · simp [locateStep, hc, hxf]
      · simp [locateStep, hc, hxf]

/-- A `some` result of the locator step is the scanned (containing) node or
the previous candidate. -/
lemma locateStep_some_cases (l c : Nat) (acc : Option SerializedNode) (x a : SerializedNode)
    (h : locateStep l c acc x = some a) :
    (a = x ∧ containsPos x l c = true) ∨ acc = some a := by
  cases acc with
  | none =>
    cases hc : containsPos x l c with
    | false => simp [locateStep, hc] at h
    | true =>
      simp [locateStep, hc] at h
      subst h
      exact Or.inl ⟨rfl, rfl⟩
  | some f =>
    cases hc : containsPos x l c with
    | false =>
      simp [locateStep, hc] at h
      subst h
      exact Or.inr rfl
    | true =>
      by_cases hxf : x.textLength ≤ f.textLength
      · simp [locateStep, hc, hxf] at h
        subst h
        exact Or.inl ⟨rfl, rfl⟩
      · simp [locateStep, hc, hxf] at h
        subst h
        exact Or.inr rfl

/-- When the scanned node contains the position, the locator step keeps a
candidate whose text length is at most the scanned node's. -/
lemma locateStep_le (l c : Nat) (acc : Option SerializedNode) (x b : SerializedNode)
    (hc : containsPos x l c = true) (h : locateStep l c acc x = some b) :
    b.textLength ≤ x.textLength := by
  cases acc with
  | none =>
    simp [locateStep, hc] at h
    subst h
    exact le_refl _
  | some f =>
    by_cases hxf : x.textLength ≤ f.textLength
    · simp [locateStep, hc, hxf] at h
      subst h
      exact le_refl _
    · simp [locateStep, hc, hxf] at h
      subst h
      omega

/-- When the scanned node contains the position, the locator step always
produces a candidate. -/
lemma locateStep_isSome (l c : Nat) (acc : Option SerializedNode) (x : SerializedNode)
    (hc : containsPos x l c = true) : ∃ b, locateStep l c acc x = some b := by
  cases acc with
  | none => exact ⟨x, by simp [locateStep, hc]⟩
  | some f =>
    by_cases hxf : x.textLength ≤ f.textLength
    · exact ⟨x, by simp [locateStep, hc, hxf]⟩
    · exact ⟨f, by simp [locateStep, hc, hxf]⟩

/-- Starting from a candidate, the locator step keeps some candidate whose
text length does not exceed the starting one's. -/
lemma locateStep_some_of_acc (l c : Nat) (acc : Option SerializedNode) (x a : SerializedNode)
    (ha : acc = some a) : ∃ b, locateStep l c acc x = some b ∧ b.textLength ≤ a.textLength := by
  subst ha
  cases hc : containsPos x l c with
  | false => exact ⟨a, by simp [locateStep, hc], le_refl _⟩
  | true =>
    by_cases hxf : x.textLength ≤ a.textLength
    · exact ⟨x, by simp [locateStep, hc, hxf], hxf⟩
    · exact ⟨a, by simp [locateStep, hc, hxf], le_refl _⟩

/-- The locator fold yields `none` exactly when it started from `none` and
no scanned node contains the position. -/
lemma locate_fold_none (nodes : List SerializedNode) (l c : Nat) :
    ∀ acc : Option SerializedNode,
      (nodes.foldl (locateStep l c) acc = none ↔
        acc = none ∧ ∀ nd ∈ nodes, containsPos nd l c = false) := by
  induction nodes with
  | nil =>
    intro acc
    simp
  | cons x tl ih =>
    intro acc
    rw [List.foldl_cons, ih (locateStep l c acc x), locateStep_eq_none]
    constructor
    · rintro ⟨⟨h1, h2⟩, h3⟩
      refine ⟨h1, ?_⟩
      intro nd hnd
      rcases List.mem_cons.mp hnd with hx | hmem
      · rw [hx]
        exact h2
      · exact h3 nd hmem
    · rintro ⟨h1, h2⟩
      refine ⟨⟨h1, h2 x (List.mem_cons_self x tl)⟩, ?_⟩
      intro nd hnd
      exact h2 nd (List.mem_cons_of_mem x hnd)

/-- A `some` result of the locator fold is a containing node of the scanned
list (or the unchanged starting candidate), and its text length is minimal
among all containing scanned nodes and at most the starting candidate's. -/
lemma locate_fold_some (nodes : List SerializedNode) (l c : Nat) :
    ∀ (acc : Option SerializedNode) (f : SerializedNode),
      nodes.foldl (locateStep l c) acc = some f →
      ((f ∈ nodes ∧ containsPos f l c = true) ∨ acc = some f) ∧
      (∀ nd ∈ nodes, containsPos nd l c = true → f.textLength ≤ nd.textLength) ∧
      (∀ a, acc = some a → f.textLength ≤ a.textLength) := by
  induction nodes with
  | nil =>
    intro acc f h
    simp only [List.foldl_nil] at h
    refine ⟨Or.inr h, by simp, ?_⟩
    intro a ha
    rw [ha] at h
    rw [Option.some_inj.mp h]
  | cons x tl ih =>
    intro acc f h
    rw [List.foldl_cons] at h
    obtain ⟨hmem, hmin, hacc⟩ := ih (locateStep l c acc x) f h
    refine ⟨?_, ?_, ?_⟩
    · rcases hmem with ⟨h1, h2⟩ | h3
      · exact Or.inl ⟨List.mem_cons_of_mem x h1, h2⟩
      · rcases locateStep_some_cases l c acc x f h3 with ⟨hfx, hcx⟩ | hacc2
        · rw [hfx]
          exact Or.inl ⟨List.mem_cons_self x tl, hfx ▸ hcx⟩
        · exact Or.inr hacc2
    · intro nd hnd hcont
      rcases List.mem_cons.mp hnd with hx | hmem2
      · subst hx
        obtain ⟨b, hb⟩ := locateStep_isSome l c acc nd hcont
        exact le_trans (hacc b hb) (locateStep_le l c acc nd b hcont hb)
      · exact hmin nd hmem2 hcont
    · intro a ha
      obtain ⟨b, hb, hba⟩ := locateStep_some_of_acc l c acc x a ha
      exact le_trans (hacc b hb) hba

/-- C5.  Node Locator correctness: a node contains the position exactly when
the claimed line/column formula holds (inclusive at both ends), the locator
returns `none` exactly when no node of the index contains the position, and
a returned node is a containing node of minimal text length among all
containing nodes of the index. -/
theorem c5_locator (nodes : List SerializedNode) (line column : Nat) :
    (∀ nd : SerializedNode, containsPos nd line column = true ↔
      ((nd.startLine < line ∨ (nd.startLine = line ∧ nd.startColumn ≤ column)) ∧
       (line < nd.endLine ∨ (nd.endLine = line ∧ column ≤ nd.endColumn)))) ∧
    (locateNode nodes line column = none ↔ ∀ nd ∈ nodes, containsPos nd line column = false) ∧
    (∀ f, locateNode nodes line column = some f →
      f ∈ nodes ∧ containsPos f line column = true ∧
      ∀ nd ∈ nodes, containsPos nd line column = true → f.textLength ≤ nd.textLength) := by
  refine ⟨?_, ?_, ?_⟩
  · intro nd
    simp [containsPos]
  · have h := locate_fold_none nodes line column none
    unfold locateNode
    rw [h]
    simp
  · intro f hf
    obtain ⟨hmem, hmin, _⟩ := locate_fold_some nodes line column none f hf
    rcases hmem with ⟨h1, h2⟩ | h3
    · exact ⟨h1, h2, hmin⟩
    · exact absurd h3 (by simp)

/-- Witness for C5: three nested nodes, the innermost of which is returned,
with its text length minimal; the containment predicate and minimality are
obtained by applying the locator theorem at the concrete index. -/
theorem c5_witness :
    locateNode
      [⟨"node_1", 1, none, "ScriptBlockAst", "", "", 1, 1, 10, 1, 100, []⟩,
       ⟨"node_2", 2, some 1, "PipelineAst", "", "", 1, 1, 5, 1, 50, []⟩,
       ⟨"node_3", 3, some 2, "CommandAst", "", "", 2, 1, 3, 1, 10, []⟩] 2 3 =
      some ⟨"node_3", 3, some 2, "CommandAst", "", "", 2, 1, 3, 1, 10, []⟩ ∧
    containsPos ⟨"node_3", 3, some 2, "CommandAst", "", "", 2, 1, 3, 1, 10, []⟩ 2 3 = true ∧
    (⟨"node_3", 3, some 2, "CommandAst", "", "", 2, 1, 3, 1, 10, []⟩ : SerializedNode).textLength ≤
      (⟨"node_1", 1, none, "ScriptBlockAst", "", "", 1, 1, 10, 1, 100, []⟩ : SerializedNode).textLength := by
  refine ⟨by decide, ?_, ?_⟩
  · exact ((c5_locator
      [⟨"node_1", 1, none, "ScriptBlockAst", "", "", 1, 1, 10, 1, 100, []⟩,
       ⟨"node_2", 2, some 1, "PipelineAst", "", "", 1, 1, 5, 1, 50, []⟩,
       ⟨"node_3", 3, some 2, "CommandAst", "", "", 2, 1, 3, 1, 10, []⟩] 2 3).2.2
      ⟨"node_3", 3, some 2, "CommandAst", "", "", 2, 1, 3, 1, 10, []⟩ (by decide)).2.1
  · exact ((c5_locator
      [⟨"node_1", 1, none, "ScriptBlockAst", "", "", 1, 1, 10, 1, 100, []⟩,
       ⟨"node_2", 2, some 1, "PipelineAst", "", "", 1, 1, 5, 1, 50, []⟩,
       ⟨"node_3", 3, some 2, "CommandAst", "", "", 2, 1, 3, 1, 10, []⟩] 2 3).2.2
      ⟨"node_3", 3, some 2, "CommandAst", "", "", 2, 1, 3, 1, 10, []⟩ (by decide)).2.2
      ⟨"node_1", 1, none, "ScriptBlockAst", "", "", 1, 1, 10, 1, 100, []⟩ (by decide) (by decide)

/-- Setting a fresh key appends the pair at the end of the map. -/
lemma jsMapSet_append {α : Type} (m : List (Int × α)) (k : Int) (v : α)
    (hk : ∀ e ∈ m, e.1 ≠ k) : jsMapSet m k v = m ++ [(k, v)] := by
  unfold jsMapSet
  rw [if_neg]
  intro hany
  rw [List.any_eq_true] at hany
  obtain ⟨e, he, hdec⟩ := hany
  exact hk e he (of_decide_eq_true hdec)

/-- First pass of the builder over hash-distinct input, starting from a map
whose keys are disjoint from the input hashes: every node is appended. -/
lemma buildNodeMap_aux (L : List SerializedNode) :
    ∀ m : List (Int × SerializedNode), (keysOf L).Nodup → (∀ e ∈ m, e.1 ∉ keysOf L) →
      L.foldl (fun m nd => jsMapSet m nd.hashCode nd) m =
        m ++ L.map (fun nd => (nd.hashCode, nd)) := by
  induction L with
  | nil =>
    intro m _ _
    simp
  | cons nd tl ih =>
    intro m hnodup hdisj
    have hnodup' : (keysOf tl).Nodup ∧ nd.hashCode ∉ keysOf tl := by
      simp only [keysOf, List.map_cons, List.nodup_cons] at hnodup
      exact ⟨hnodup.2, hnodup.1⟩
    rw [List.foldl_cons]
    have hset : jsMapSet m nd.hashCode nd = m ++ [(nd.hashCode, nd)] := by
      apply jsMapSet_append
      intro e he
      have hin := hdisj e he
      simp only [keysOf, List.map_cons, List.mem_cons] at hin
      intro heq
      exact hin (Or.inl heq)
    rw [hset, ih (m ++ [(nd.hashCode, nd)]) hnodup'.1]
    · simp
    · intro e he
      rcases List.mem_append.mp he with hm | hone
      · have hin := hdisj e hm
        simp only [keysOf, List.map_cons, List.mem_cons] at hin
        intro hmem
        exact hin (Or.inr hmem)
      · have : e = (nd.hashCode, nd) := by simpa using hone
        rw [this]
        exact hnodup'.2

/-- With pairwise-distinct identity hashes the node map is the input list
itself, paired with its hashes, in order. -/
lemma buildNodeMap_eq (L : List SerializedNode) (h1 : (keysOf L).Nodup) :
    buildNodeMap L = L.map (fun nd => (nd.hashCode, nd)) := by
  unfold buildNodeMap
  have h := buildNodeMap_aux L [] h1 (by simp)
  simpa using h

/-- The root list accumulated by the linking pass: the keys of the scanned
entries with no parent reference, in order. -/
lemma linkFold_fst (nm : List (Int × SerializedNode)) :
    ∀ (pairs : List (Int × SerializedNode)) (acc : List Int × List (Int × List Int)),
      (pairs.foldl (linkStep nm) acc).1 =
        acc.1 ++ (pairs.filter (fun e => e.2.parentHashCode.isNone)).map (fun e => e.1) := by
  intro pairs
  induction pairs with
  | nil =>
    intro acc
    simp
  | cons e tl ih =>
    intro acc
    rw [List.foldl_cons]
    cases hp : e.2.parentHashCode with
    | none =>
      have hstep : linkStep nm acc e = (acc.1 ++ [e.1], acc.2) := by simp [linkStep, hp]
      rw [hstep, ih]
      simp [List.filter_cons, hp]
    | some p =>
      have hstep1 : (linkStep nm acc e).1 = acc.1 := by
        cases hg : jsMapGet nm p with
        | none => simp [linkStep, hp, hg]
        | some v => simp [linkStep, hp, hg]
      rw [ih (linkStep nm acc e), hstep1]
      simp [List.filter_cons, hp]

/-- Appending a child does not change the key list of the child-list table. -/
lemma appendChild_keys (cs : List (Int × List Int)) (p c : Int) :
    (appendChild cs p c).map (fun e => e.1) = cs.map (fun e => e.1) := by
  induction cs with
  | nil => rfl
  | cons e tl ih =>
    by_cases he : e.1 = p
    · simp only [appendChild, List.map_cons] at ih ⊢
      rw [if_pos he]
      simp only [List.map_cons] at ih ⊢
      rw [ih]
    · simp only [appendChild, List.map_cons] at ih ⊢
      rw [if_neg he]
      rw [ih]

/-- Appending a child to an existing entry extends that entry's list. -/
lemma cLookup_appendChild_same (cs : List (Int × List Int)) (q c : Int)
    (hq : q ∈ cs.map (fun e => e.1)) :
    cLookup (appendChild cs q c) q = cLookup cs q ++ [c] := by
  induction cs with
  | nil => simp at hq
  | cons e tl ih =>
    by_cases he : e.1 = q
    · simp [appendChild, cLookup, he]
    · have hq' : q ∈ tl.map (fun e => e.1) := by
        have hq2 : q = e.1 ∨ q ∈ tl.map (fun e => e.1) := by
          have h3 := hq
          simp only [List.map_cons, List.mem_cons] at h3
          exact h3
        rcases hq2 with h | h
        · exact absurd h.symm he
        · exact h
      simp only [appendChild, List.map_cons] at ih ⊢
      rw [if_neg he]
      simp only [cLookup] at ih ⊢
      rw [List.find?_cons_of_neg, List.find?_cons_of_neg]
      · exact ih hq'
      · simp [he]
      · simp [he]

/-- Appending a child to another entry leaves an entry's list unchanged. -/
lemma cLookup_appendChild_ne (cs : List (Int × List Int)) (p q c : Int) (hpq : p ≠ q) :
    cLookup (appendChild cs p c) q = cLookup cs q := by
  induction cs with
  | nil => rfl
  | cons e tl ih =>
    by_cases he : e.1 = q
    · have hqp : ¬ q = p := fun h => hpq h.symm
      simp [appendChild, cLookup, he, hqp]
    · by_cases hep : e.1 = p
      · simp only [appendChild, List.map_cons] at ih ⊢
        rw [if_pos hep]
        simp only [cLookup] at ih ⊢
        rw [List.find?_cons_of_neg, List.find?_cons_of_neg]
        · exact ih
        · simp [he]
        · simp [he]
      · simp only [appendChild, List.map_cons] at ih ⊢
        rw [if_neg hep]
        simp only [cLookup] at ih ⊢
        rw [List.find?_cons_of_neg, List.find?_cons_of_neg]
        · exact ih
        · simp [he]
        · simp [he]

/-- Every entry of the freshly initialised child-list table is empty. -/
lemma cLookup_init (m : List (Int × SerializedNode)) (q : Int) :
    cLookup (m.map (fun e => (e.1, ([] : List Int)))) q = [] := by
  induction m with
  | nil => rfl
  | cons e tl ih =>
    by_cases he : e.1 = q
    · simp [cLookup, he]
    · simp only [cLookup, List.map_cons] at ih ⊢
      rw [List.find?_cons_of_neg]
      · exact ih
      · simp [he]

/-- Lookup of an absent key yields the empty list. -/
lemma cLookup_not_mem (cs : List (Int × List Int)) (q : Int)
    (h : q ∉ cs.map (fun e => e.1)) : cLookup cs q = [] := by
  induction cs with
  | nil => rfl
  | cons e tl ih =>
    have he : ¬ e.1 = q := by
      intro heq
      exact h (by simp [heq])
    simp only [cLookup] at ih ⊢
    rw [List.find?_cons_of_neg]
    · exact ih (fun hmem => h (by simp [hmem]))
    · simp [he]

/-- The linking pass does not change the key list of the child-list table. -/
lemma linkFold_children_keys (nm : List (Int × SerializedNode)) :
    ∀ (pairs : List (Int × SerializedNode)) (acc : List Int × List (Int × List Int)),
      ((pairs.foldl (linkStep nm) acc).2).map (fun e => e.1) = acc.2.map (fun e => e.1) := by
  intro pairs
  induction pairs with
  | nil =>
    intro acc
    simp
  | cons e tl ih =>
    intro acc
    rw [List.foldl_cons, ih]
    cases hp : e.2.parentHashCode with
    | none => simp [linkStep, hp]
    | some p =>
      cases hg : jsMapGet nm p with
      | none => simp [linkStep, hp, hg]
      | some v =>
        simp only [linkStep, hp, hg]
        exact appendChild_keys acc.2 p e.1

/-- The child list accumulated for a key `q` by the linking pass: whatever
it held at the start, extended by the keys of the scanned entries whose
parent reference is `q`, in order (the parent lookup succeeds for `q`, so
none of them is dropped). -/
lemma linkFold_children (nm : List (Int × SerializedNode)) (q : Int)
    (hq2 : (jsMapGet nm q).isSome) :
    ∀ (pairs : List (Int × SerializedNode)) (acc : List Int × List (Int × List Int)),
      q ∈ acc.2.map (fun e => e.1) →
      cLookup ((pairs.foldl (linkStep nm) acc).2) q =
        cLookup acc.2 q ++
          (pairs.filter (fun e => decide (e.2.parentHashCode = some q))).map (fun e => e.1) := by
  intro pairs
  induction pairs with
  | nil =>
    intro acc _
    simp
  | cons e tl ih =>
    intro acc hqacc
    rw [List.foldl_cons]
    cases hp : e.2.parentHashCode with
    | none =>
      have hstep : linkStep nm acc e = (acc.1 ++ [e.1], acc.2) := by simp [linkStep, hp]
      rw [hstep, ih (acc.1 ++ [e.1], acc.2) hqacc]
      simp [List.filter_cons, hp]
    | some p =>
      cases hg : jsMapGet nm p with
      | none =>
        have hstep : linkStep nm acc e = acc := by simp [linkStep, hp, hg]
        have hpq : ¬ (p = q) := by
          intro heq
          subst heq
          rw [hg] at hq2
          simp at hq2
        rw [hstep, ih acc hqacc]
        simp [List.filter_cons, hp, hpq]
      | some v =>
        have hstep : linkStep nm acc e = (acc.1, appendChild acc.2 p e.1) := by
          simp [linkStep, hp, hg]
        rw [hstep]
        have hkeys : q ∈ (appendChild acc.2 p e.1).map (fun x => x.1) := by
          rw [appendChild_keys]
          exact hqacc
        rw [ih (acc.1, appendChild acc.2 p e.1) hkeys]
        by_cases hpq : p = q
        · subst hpq
          rw [cLookup_appendChild_same acc.2 p e.1 hqacc]
          simp [List.filter_cons, hp]
        · rw [cLookup_appendChild_ne acc.2 p q e.1 hpq]
          simp [List.filter_cons, hp, hpq]

/-- Looking a member's hash up in the paired map returns that member, when
identity hashes are pairwise distinct. -/
lemma jsMapGet_pairs (L : List SerializedNode) (h1 : (keysOf L).Nodup)
    (nd : SerializedNode) (hnd : nd ∈ L) :
    jsMapGet (L.map (fun x => (x.hashCode, x))) nd.hashCode = some nd := by
  induction L with
  | nil => cases hnd
  | cons x tl ih =>
    have h1' : (keysOf tl).Nodup ∧ x.hashCode ∉ keysOf tl := by
      simp only [keysOf, List.map_cons, List.nodup_cons] at h1
      exact ⟨h1.2, h1.1⟩
    rcases List.mem_cons.mp hnd with h | h
    · subst h
      simp [jsMapGet]
    · have hne : ¬ (x.hashCode = nd.hashCode) := by
        intro heq
        apply h1'.2
        rw [heq]
        exact List.mem_map_of_mem (fun y => y.hashCode) h
      simp only [jsMapGet, List.map_cons]
      rw [List.find?_cons_of_neg]
      · exact ih h1'.1 h
      · simp [hne]

/-- Looking up an absent hash in the paired map fails. -/
lemma jsMapGet_pairs_none (L : List SerializedNode) (h : Int) (hh : h ∉ keysOf L) :
    jsMapGet (L.map (fun x => (x.hashCode, x))) h = none := by
  induction L with
  | nil => rfl
  | cons x tl ih =>
    have hne : ¬ (x.hashCode = h) := by
      intro heq
      exact hh (by simp [keysOf, heq])
    simp only [jsMapGet, List.map_cons]
    rw [List.find?_cons_of_neg]
    · exact ih (fun hmem => hh (by simp [keysOf] at hmem ⊢; exact Or.inr hmem))
    · simp [hne]

/-- Looking up a present hash in the paired map succeeds. -/
lemma jsMapGet_pairs_isSome (L : List SerializedNode) (h : Int) (hh : h ∈ keysOf L) :
    (jsMapGet (L.map (fun x => (x.hashCode, x))) h).isSome = true := by
  induction L with
  | nil => simp [keysOf] at hh
  | cons x tl ih =>
    by_cases hx : x.hashCode = h
    · simp [jsMapGet, hx]
    · simp only [jsMapGet, List.map_cons]
      rw [List.find?_cons_of_neg]
      · apply ih
        simp only [keysOf, List.map_cons, List.mem_cons] at hh
        rcases hh with h2 | h2
        · exact absurd h2.symm hx
        · exact h2
      · simp [hx]

/-- Unfolding of the builder on non-empty input into its three components. -/
lemma buildTree_parts (L : List SerializedNode) (hne : L ≠ []) :
    (buildTreeFromFlatData L).nodeMap = buildNodeMap L ∧
    (buildTreeFromFlatData L).roots =
      ((buildNodeMap L).foldl (linkStep (buildNodeMap L))
        ([], (buildNodeMap L).map (fun e => (e.1, [])))).1 ∧
    (buildTreeFromFlatData L).children =
      ((buildNodeMap L).foldl (linkStep (buildNodeMap L))
        ([], (buildNodeMap L).map (fun e => (e.1, [])))).2 := by
  cases L with
  | nil => exact absurd rfl hne
  | cons x xs => exact ⟨rfl, rfl, rfl⟩

/-- With distinct hashes, the node map of the built forest is the paired
input list. -/
lemma buildTree_nodeMap (L : List SerializedNode) (h1 : (keysOf L).Nodup) (hne : L ≠ []) :
    (buildTreeFromFlatData L).nodeMap = L.map (fun nd => (nd.hashCode, nd)) := by
  rw [(buildTree_parts L hne).1]
  exact buildNodeMap_eq L h1

/-- With distinct hashes, the root list of the built forest is exactly the
hashes of the input nodes with no parent reference, in input order. -/
lemma buildTree_roots (L : List SerializedNode) (h1 : (keysOf L).Nodup) (hne : L ≠ []) :
    (buildTreeFromFlatData L).roots = rootsOf L := by
  rw [(buildTree_parts L hne).2.1]
  rw [linkFold_fst]
  rw [buildNodeMap_eq L h1]
  simp only [List.filter_map, List.map_map, List.nil_append]
  rfl

/-- The key list of the built child-list table is the input hash list. -/
lemma buildTree_children_keys (L : List SerializedNode) (h1 : (keysOf L).Nodup) (hne : L ≠ []) :
    (buildTreeFromFlatData L).children.map (fun e => e.1) = keysOf L := by
  rw [(buildTree_parts L hne).2.2]
  rw [linkFold_children_keys]
  rw [buildNodeMap_eq L h1]
  rw [List.map_map, List.map_map]
  rfl

/-- With distinct hashes, the child list of a present key `q` in the built
forest is exactly the hashes of the input nodes whose parent reference is
`q`, in input order. -/
lemma buildTree_childrenOf_mem (L : List SerializedNode) (h1 : (keysOf L).Nodup) (hne : L ≠ [])
    (q : Int) (hq : q ∈ keysOf L) :
    childrenOf (buildTreeFromFlatData L) q = childListOf L q := by
  unfold childrenOf
  rw [(buildTree_parts L hne).2.2]
  rw [buildNodeMap_eq L h1]
  have hq2 : (jsMapGet (L.map (fun x => (x.hashCode, x))) q).isSome :=
    jsMapGet_pairs_isSome L q hq
  have hmem : q ∈ ((([], (L.map (fun nd => (nd.hashCode, nd))).map (fun e => (e.1, ([] : List Int)))) : List Int × List (Int × List Int)).2).map (fun e => e.1) := by
    show q ∈ ((L.map (fun nd => (nd.hashCode, nd))).map (fun e => (e.1, ([] : List Int)))).map (fun e => e.1)
    simp only [List.map_map]
    simpa [keysOf, Function.comp] using hq
  rw [linkFold_children (L.map (fun nd => (nd.hashCode, nd))) q hq2
    (L.map (fun nd => (nd.hashCode, nd)))
    ([], (L.map (fun nd => (nd.hashCode, nd))).map (fun e => (e.1, [])))
    hmem]
  show cLookup ((L.map (fun nd => (nd.hashCode, nd))).map (fun e => (e.1, ([] : List Int)))) q ++ _ = _
  rw [cLookup_init]
  simp only [List.nil_append, List.filter_map, List.map_map]
  rfl

/-- The child list of an absent key is empty. -/
lemma buildTree_childrenOf_not_mem (L : List SerializedNode) (h1 : (keysOf L).Nodup)
    (hne : L ≠ []) (q : Int) (hq : q ∉ keysOf L) :
    childrenOf (buildTreeFromFlatData L) q = [] := by
  unfold childrenOf
  apply cLookup_not_mem
  rw [buildTree_children_keys L h1 hne]
  exact hq

/-- Membership in a child list of the input. -/
lemma mem_childListOf (L : List SerializedNode) (q c : Int) :
    c ∈ childListOf L q ↔ ∃ nd ∈ L, nd.parentHashCode = some q ∧ nd.hashCode = c := by
  simp [childListOf, List.mem_filter]
  constructor
  · rintro ⟨nd, ⟨hmem, hpar⟩, hhash⟩
    exact ⟨nd, hmem, hpar, hhash⟩
  · rintro ⟨nd, hmem, hpar, hhash⟩
    exact ⟨nd, ⟨hmem, hpar⟩, hhash⟩

/-- Membership in the root-hash list of the input. -/
lemma mem_rootsOf (L : List SerializedNode) (h : Int) :
    h ∈ rootsOf L ↔ ∃ nd ∈ L, nd.parentHashCode = none ∧ nd.hashCode = h := by
  simp [rootsOf, List.mem_filter, Option.isNone_iff_eq_none]
  constructor
  · rintro ⟨nd, ⟨hmem, hpar⟩, hhash⟩
    exact ⟨nd, hmem, hpar, hhash⟩
  · rintro ⟨nd, hmem, hpar, hhash⟩
    exact ⟨nd, ⟨hmem, hpar⟩, hhash⟩

/-- With pairwise-distinct identity hashes, equal hashes identify equal
input nodes. -/
lemma nodes_hash_inj (L : List SerializedNode) (h1 : (keysOf L).Nodup)
    (a b : SerializedNode) (ha : a ∈ L) (hb : b ∈ L) (h : a.hashCode = b.hashCode) : a = b := by
  induction L with
  | nil => cases ha
  | cons x tl ih =>
    have h1' : (keysOf tl).Nodup ∧ x.hashCode ∉ keysOf tl := by
      simp only [keysOf, List.map_cons, List.nodup_cons] at h1
      exact ⟨h1.2, h1.1⟩
    rcases List.mem_cons.mp ha with rfl | hta
    · rcases List.mem_cons.mp hb with rfl | htb
      · rfl
      · exact absurd (h ▸ List.mem_map_of_mem (fun y => y.hashCode) htb) h1'.2
    · rcases List.mem_cons.mp hb with rfl | htb
      · exact absurd (h ▸ List.mem_map_of_mem (fun y => y.hashCode) hta) h1'.2
      · exact ih h1'.1 hta htb

/-- With distinct keys, the lookup of an entry's key yields its list. -/
lemma cLookup_of_mem_nodup (cs : List (Int × List Int))
    (hnodup : (cs.map (fun e => e.1)).Nodup) (k : Int) (v : List Int)
    (hmem : (k, v) ∈ cs) : cLookup cs k = v := by
  induction cs with
  | nil => cases hmem
  | cons e tl ih =>
    have h1' : (tl.map (fun e => e.1)).Nodup ∧ e.1 ∉ tl.map (fun x => x.1) := by
      simp only [List.map_cons, List.nodup_cons] at hnodup
      exact ⟨hnodup.2, hnodup.1⟩
    rcases List.mem_cons.mp hmem with rfl | htl
    · simp [cLookup]
    · have hk : k ∈ tl.map (fun x => x.1) := by
        have hmm := List.mem_map_of_mem (fun x : Int × List Int => x.1) htl
        simpa using hmm
      have hne : ¬ (e.1 = k) := fun heq => h1'.2 (heq ▸ hk)
      simp only [cLookup]
      rw [List.find?_cons_of_neg]
      · exact ih h1'.1 htl
      · simp [hne]

/-- C4.  Orphan handling: in a hash-distinct node list containing an orphan
(a node whose parent hash is not any node's identity hash), the builder
excludes the orphan from the root list and from every child list, while
every node whose parent resolves is linked into exactly its parent's child
list and every parentless node is a root.  The embedding is a total
function, so no input makes the builder throw. -/
theorem c4_orphan_exclusion (L : List SerializedNode) (o : SerializedNode) (p : Int)
    (h1 : (keysOf L).Nodup) (ho : o ∈ L) (hop : o.parentHashCode = some p)
    (hp : p ∉ keysOf L) :
    o.hashCode ∉ (buildTreeFromFlatData L).roots ∧
    (∀ e ∈ (buildTreeFromFlatData L).children, o.hashCode ∉ e.2) ∧
    (∀ nd ∈ L, ∀ q, nd.parentHashCode = some q → q ∈ keysOf L →
      nd.hashCode ∈ childrenOf (buildTreeFromFlatData L) q) ∧
    (∀ nd ∈ L, nd.parentHashCode = none → nd.hashCode ∈ (buildTreeFromFlatData L).roots) := by
  have hne : L ≠ [] := by
    intro hnil
    rw [hnil] at ho
    cases ho
  refine ⟨?_, ?_, ?_, ?_⟩
  · rw [buildTree_roots L h1 hne]
    intro hmem
    obtain ⟨nd, hndL, hpar, hhash⟩ := (mem_rootsOf L o.hashCode).mp hmem
    have : nd = o := nodes_hash_inj L h1 nd o hndL ho hhash
    rw [this] at hpar
    rw [hop] at hpar
    cases hpar
  · intro e he hmem
    have hkey : e.1 ∈ keysOf L := by
      rw [← buildTree_children_keys L h1 hne]
      exact List.mem_map_of_mem (fun x => x.1) he
    have hnodup : ((buildTreeFromFlatData L).children.map (fun x => x.1)).Nodup := by
      rw [buildTree_children_keys L h1 hne]
      exact h1
    have hlook : childrenOf (buildTreeFromFlatData L) e.1 = e.2 :=
      cLookup_of_mem_nodup (buildTreeFromFlatData L).children hnodup e.1 e.2 (by
        rcases e with ⟨k, v⟩
        exact he)
    rw [← hlook] at hmem
    rw [buildTree_childrenOf_mem L h1 hne e.1 hkey] at hmem
    obtain ⟨nd, hndL, hpar, hhash⟩ := (mem_childListOf L e.1 o.hashCode).mp hmem
    have hnd : nd = o := nodes_hash_inj L h1 nd o hndL ho hhash
    rw [hnd, hop] at hpar
    have : p = e.1 := by
      injection hpar
    rw [this] at hp
    exact hp hkey
  · intro nd hnd q hq hqk
    rw [buildTree_childrenOf_mem L h1 hne q hqk]
    rw [mem_childListOf]
    exact ⟨nd, hnd, hq, rfl⟩
  · intro nd hnd hq
    rw [buildTree_roots L h1 hne, mem_rootsOf]
    exact ⟨nd, hnd, hq, rfl⟩

/-- Witness for C4 at a concrete input: the orphan (hash 2, parent 99) is
excluded from the roots, and the resolvable child (hash 3, parent 1) is
linked under its parent. -/
theorem c4_witness :
    (⟨"node_2", 2, some 99, "", "", "", 1, 1, 1, 1, 0, []⟩ : SerializedNode).hashCode ∉
      (buildTreeFromFlatData
        [⟨"node_1", 1, none, "", "", "", 1, 1, 1, 1, 0, []⟩,
         ⟨"node_2", 2, some 99, "", "", "", 1, 1, 1, 1, 0, []⟩,
         ⟨"node_3", 3, some 1, "", "", "", 1, 1, 1, 1, 0, []⟩]).roots ∧
    (⟨"node_3", 3, some 1, "", "", "", 1, 1, 1, 1, 0, []⟩ : SerializedNode).hashCode ∈
      childrenOf (buildTreeFromFlatData
        [⟨"node_1", 1, none, "", "", "", 1, 1, 1, 1, 0, []⟩,
         ⟨"node_2", 2, some 99, "", "", "", 1, 1, 1, 1, 0, []⟩,
         ⟨"node_3", 3, some 1, "", "", "", 1, 1, 1, 1, 0, []⟩]) 1 := by
  constructor
  · exact (c4_orphan_exclusion
      [⟨"node_1", 1, none, "", "", "", 1, 1, 1, 1, 0, []⟩,
       ⟨"node_2", 2, some 99, "", "", "", 1, 1, 1, 1, 0, []⟩,
       ⟨"node_3", 3, some 1, "", "", "", 1, 1, 1, 1, 0, []⟩]
      ⟨"node_2", 2, some 99, "", "", "", 1, 1, 1, 1, 0, []⟩ 99
      (by decide) (by decide) rfl (by decide)).1
  · exact (c4_orphan_exclusion
      [⟨"node_1", 1, none, "", "", "", 1, 1, 1, 1, 0, []⟩,
       ⟨"node_2", 2, some 99, "", "", "", 1, 1, 1, 1, 0, []⟩,
       ⟨"node_3", 3, some 1, "", "", "", 1, 1, 1, 1, 0, []⟩]
      ⟨"node_2", 2, some 99, "", "", "", 1, 1, 1, 1, 0, []⟩ 99
      (by decide) (by decide) rfl (by decide)).2.2.1
      ⟨"node_3", 3, some 1, "", "", "", 1, 1, 1, 1, 0, []⟩ (by decide) 1 rfl (by decide)

/-- With distinct hashes, looking up a member's hash yields its parent. -/
lemma parentOf_of_mem (L : List SerializedNode) (h1 : (keysOf L).Nodup)
    (nd : SerializedNode) (hnd : nd ∈ L) : parentOf L nd.hashCode = nd.parentHashCode := by
  induction L with
  | nil => cases hnd
  | cons x tl ih =>
    have h1' : (keysOf tl).Nodup ∧ x.hashCode ∉ keysOf tl := by
      simp only [keysOf, List.map_cons, List.nodup_cons] at h1
      exact ⟨h1.2, h1.1⟩
    rcases List.mem_cons.mp hnd with rfl | htl
    · simp [parentOf]
    · have hne : ¬ (x.hashCode = nd.hashCode) := by
        intro heq
        exact h1'.2 (heq ▸ List.mem_map_of_mem (fun y => y.hashCode) htl)
      simp only [parentOf]
      rw [List.find?_cons_of_neg]
      · exact ih h1'.1 htl
      · simp [hne]

/-- A successful parent lookup certifies a member node with that hash and
parent. -/
lemma parentOf_eq_some (L : List SerializedNode) (h p : Int)
    (hp : parentOf L h = some p) :
    ∃ nd ∈ L, nd.hashCode = h ∧ nd.parentHashCode = some p := by
  unfold parentOf at hp
  cases hfind : L.find? (fun nd => decide (nd.hashCode = h)) with
  | none => rw [hfind] at hp; cases hp
  | some nd =>
    rw [hfind] at hp
    refine ⟨nd, List.mem_of_find?_eq_some hfind, ?_, hp⟩
    have := List.find?_some hfind
    exact of_decide_eq_true this

/-- Under the rank hypothesis, a parent has strictly smaller rank. -/
lemma parentOf_rank (L : List SerializedNode) (r : Int → Nat) (_h1 : (keysOf L).Nodup)
    (h3 : ∀ nd ∈ L, ∀ p, nd.parentHashCode = some p → r p < r nd.hashCode)
    (h p : Int) (hp : parentOf L h = some p) : r p < r h := by
  obtain ⟨nd, hndL, hhash, hpar⟩ := parentOf_eq_some L h p hp
  have := h3 nd hndL p hpar
  rw [hhash] at this
  exact this

/-- Under the consistency hypothesis, a parent hash is an identity hash. -/
lemma parentOf_mem_keys (L : List SerializedNode)
    (h2 : ∀ nd ∈ L, ∀ p, nd.parentHashCode = some p → p ∈ keysOf L)
    (h p : Int) (hp : parentOf L h = some p) : p ∈ keysOf L := by
  obtain ⟨nd, hndL, _, hpar⟩ := parentOf_eq_some L h p hp
  exact h2 nd hndL p hpar

/-- A successful parent lookup starts from a present hash. -/
lemma parentOf_some_mem (L : List SerializedNode) (h p : Int)
    (hp : parentOf L h = some p) : h ∈ keysOf L := by
  obtain ⟨nd, hndL, hhash, _⟩ := parentOf_eq_some L h p hp
  exact hhash ▸ List.mem_map_of_mem (fun y => y.hashCode) hndL

/-- Splitting an iterated parent walk. -/
lemma iterParent_add (L : List SerializedNode) (a b : Nat) (h : Int) :
    iterParent L (a + b) h =
      match iterParent L a h with
      | none => none
      | some m => iterParent L b m := by
  induction a generalizing h with
  | zero => simp [iterParent]
  | succ a ih =>
    have hrw : a + 1 + b = (a + b) + 1 := by omega
    rw [hrw]
    show (match parentOf L h with
      | none => none
      | some p => iterParent L (a + b) p) = _
    cases hp : parentOf L h with
    | none => simp [iterParent, hp]
    | some p =>
      simp only [iterParent, hp]
      exact ih p

/-- A strict ancestor has strictly smaller rank. -/
lemma anc_rank (L : List SerializedNode) (r : Int → Nat) (h1 : (keysOf L).Nodup)
    (h3 : ∀ nd ∈ L, ∀ p, nd.parentHashCode = some p → r p < r nd.hashCode)
    (x z : Int) (hanc : Anc L x z) : r x < r z := by
  obtain ⟨k, hk⟩ := hanc
  induction k generalizing z with
  | zero =>
    show r x < r z
    have hz : ∃ p, parentOf L z = some p ∧ iterParent L 0 p = some x := by
      cases hp : parentOf L z with
      | none => rw [show iterParent L 1 z = none by simp [iterParent, hp]] at hk; cases hk
      | some p =>
        refine ⟨p, rfl, ?_⟩
        rw [show iterParent L 1 z = iterParent L 0 p by simp [iterParent, hp]] at hk
        exact hk
    obtain ⟨p, hp, hx⟩ := hz
    have hxp : x = p := by
      simp [iterParent] at hx
      exact hx.symm
    rw [hxp]
    exact parentOf_rank L r h1 h3 z p hp
  | succ k ih =>
    have hz : ∃ p, parentOf L z = some p ∧ iterParent L (k + 1) p = some x := by
      cases hp : parentOf L z with
      | none => rw [show iterParent L (k+1+1) z = none by simp [iterParent, hp]] at hk; cases hk
      | some p =>
        refine ⟨p, rfl, ?_⟩
        rw [show iterParent L (k+1+1) z = iterParent L (k+1) p by simp [iterParent, hp]] at hk
        exact hk
    obtain ⟨p, hp, hx⟩ := hz
    have h1p : r x < r p := ih p hx
    have h2p : r p < r z := parentOf_rank L r h1 h3 z p hp
    omega

/-- A reflexive ancestor has rank at most the descendant's. -/
lemma ancEq_rank (L : List SerializedNode) (r : Int → Nat) (h1 : (keysOf L).Nodup)
    (h3 : ∀ nd ∈ L, ∀ p, nd.parentHashCode = some p → r p < r nd.hashCode)
    (x z : Int) (h : AncEq L x z) : r x ≤ r z := by
  rcases h with rfl | hanc
  · exact le_refl _
  · exact le_of_lt (anc_rank L r h1 h3 x z hanc)

/-- One parent step extends reflexive ancestorship into strict
ancestorship. -/
lemma anc_step (L : List SerializedNode) (c x z : Int)
    (hc : parentOf L c = some x) (h : AncEq L c z) : Anc L x z := by
  rcases h with rfl | hanc
  · exact ⟨0, by simp [iterParent, hc]⟩
  · obtain ⟨k, hk⟩ := hanc
    refine ⟨k + 1, ?_⟩
    rw [show k + 1 + 1 = (k + 1) + 1 from rfl]
    rw [iterParent_add L (k+1) 1 z, hk]
    simp [iterParent, hc]

/-- Two ancestors of the same node are comparable. -/
lemma anc_comparable (L : List SerializedNode) (x y z : Int)
    (hx : Anc L x z) (hy : Anc L y z) : AncEq L x y ∨ AncEq L y x := by
  obtain ⟨k1, hk1⟩ := hx
  obtain ⟨k2, hk2⟩ := hy
  rcases le_or_lt k1 k2 with hle | hlt
  · obtain ⟨m, hm⟩ : ∃ m, k2 + 1 = (k1 + 1) + m := ⟨k2 - k1, by omega⟩
    rw [hm, iterParent_add L (k1+1) m z, hk1] at hk2
    have hk2c : iterParent L m x = some y := hk2
    cases m with
    | zero =>
      have hxy : x = y := by simpa [iterParent] using hk2c
      exact Or.inr (Or.inl hxy)
    | succ m => exact Or.inr (Or.inr ⟨m, hk2c⟩)
  · obtain ⟨m, hm⟩ : ∃ m, k1 + 1 = (k2 + 1) + (m + 1) := ⟨k1 - k2 - 1, by omega⟩
    rw [hm, iterParent_add L (k2+1) (m+1) z, hk2] at hk1
    have hk1c : iterParent L (m + 1) y = some x := hk1
    exact Or.inl (Or.inr ⟨m, hk1c⟩)

/-- Membership one level down the pre-order traversal. -/
lemma mem_preord_succ (f : Int → List Int) (d : Nat) (ws : List Int) (z : Int) :
    z ∈ preord f (d+1) ws ↔ ∃ x ∈ ws, z = x ∨ z ∈ preord f d (f x) := by
  simp [preord, List.mem_flatMap]

/-- Elements of a child list are identity hashes. -/
lemma childListOf_subset_keys (L : List SerializedNode) (q c : Int)
    (hc : c ∈ childListOf L q) : c ∈ keysOf L := by
  obtain ⟨nd, hnd, _, hh⟩ := (mem_childListOf L q c).mp hc
  exact hh ▸ List.mem_map_of_mem (fun y => y.hashCode) hnd

/-- Child lists are duplicate free when the identity hashes are. -/
lemma childListOf_nodup (L : List SerializedNode) (h1 : (keysOf L).Nodup) (q : Int) :
    (childListOf L q).Nodup := by
  apply h1.sublist
  exact (List.filter_sublist L).map (fun nd => nd.hashCode)

/-- Root hashes are duplicate free when the identity hashes are. -/
lemma rootsOf_nodup (L : List SerializedNode) (h1 : (keysOf L).Nodup) :
    (rootsOf L).Nodup := by
  apply h1.sublist
  exact (List.filter_sublist L).map (fun nd => nd.hashCode)

/-- Root hashes are identity hashes. -/
lemma rootsOf_subset_keys (L : List SerializedNode) (h : Int) (hh : h ∈ rootsOf L) :
    h ∈ keysOf L := by
  obtain ⟨nd, hnd, _, hhash⟩ := (mem_rootsOf L h).mp hh
  exact hhash ▸ List.mem_map_of_mem (fun y => y.hashCode) hnd

/-- A child-list member's parent is that list's key. -/
lemma mem_childListOf_parent (L : List SerializedNode) (h1 : (keysOf L).Nodup) (q c : Int)
    (hc : c ∈ childListOf L q) : parentOf L c = some q := by
  obtain ⟨nd, hnd, hpar, hh⟩ := (mem_childListOf L q c).mp hc
  rw [← hh, parentOf_of_mem L h1 nd hnd]
  exact hpar

/-- A present hash whose parent lookup yields `q` is in the child list of
`q`. -/
lemma childListOf_of_parent (L : List SerializedNode) (h1 : (keysOf L).Nodup) (q c : Int)
    (hck : c ∈ keysOf L) (hp : parentOf L c = some q) : c ∈ childListOf L q := by
  obtain ⟨nd, hnd, hh⟩ := List.mem_map.mp hck
  rw [mem_childListOf]
  refine ⟨nd, hnd, ?_, hh⟩
  rw [← parentOf_of_mem L h1 nd hnd, hh]
  exact hp

/-- A root hash has no parent. -/
lemma rootsOf_parent_none (L : List SerializedNode) (h1 : (keysOf L).Nodup) (h : Int)
    (hh : h ∈ rootsOf L) : parentOf L h = none := by
  obtain ⟨nd, hnd, hpar, hhash⟩ := (mem_rootsOf L h).mp hh
  rw [← hhash, parentOf_of_mem L h1 nd hnd]
  exact hpar

/-- Fuel monotonicity of the pre-order traversal, one step. -/
lemma preord_mono_succ (f : Int → List Int) :
    ∀ (d : Nat) (ws : List Int) (z : Int), z ∈ preord f d ws → z ∈ preord f (d+1) ws := by
  intro d
  induction d with
  | zero =>
    intro ws z h
    simp [preord] at h
  | succ d ih =>
    intro ws z h
    rw [mem_preord_succ] at h
    rw [mem_preord_succ]
    obtain ⟨x, hx, hz⟩ := h
    rcases hz with rfl | hz
    · exact ⟨z, hx, Or.inl rfl⟩
    · exact ⟨x, hx, Or.inr (ih (f x) z hz)⟩

/-- Fuel monotonicity of the pre-order traversal. -/
lemma preord_mono (f : Int → List Int) (d d' : Nat) (hdd : d ≤ d') (ws : List Int) (z : Int)
    (h : z ∈ preord f d ws) : z ∈ preord f d' ws := by
  induction d', hdd using Nat.le_induction with
  | base => exact h
  | succ n hn ih => exact preord_mono_succ f n ws z ih

/-- A child of an emitted node is emitted with one more unit of fuel. -/
lemma preord_push (f : Int → List Int) :
    ∀ (d : Nat) (ws : List Int) (x c : Int),
      x ∈ preord f d ws → c ∈ f x → c ∈ preord f (d+1) ws := by
  intro d
  induction d with
  | zero =>
    intro ws x c hx _
    simp [preord] at hx
  | succ d ih =>
    intro ws x c hx hc
    rw [mem_preord_succ] at hx
    rw [mem_preord_succ]
    obtain ⟨y, hy, hxy⟩ := hx
    rcases hxy with rfl | hxy
    · refine ⟨x, hy, Or.inr ?_⟩
      rw [mem_preord_succ]
      exact ⟨c, hc, Or.inl rfl⟩
    · exact ⟨y, hy, Or.inr (ih (f y) x c hxy hc)⟩

/-- Everything emitted by the traversal of child lists is an identity
hash, provided the starting worklist is. -/
lemma preord_subset_keys (L : List SerializedNode) :
    ∀ (d : Nat) (ws : List Int), (∀ x ∈ ws, x ∈ keysOf L) →
      ∀ z ∈ preord (childListOf L) d ws, z ∈ keysOf L := by
  intro d
  induction d with
  | zero =>
    intro ws _ z hz
    simp [preord] at hz
  | succ d ih =>
    intro ws hws z hz
    rw [mem_preord_succ] at hz
    obtain ⟨x, hx, hzx⟩ := hz
    rcases hzx with rfl | hzx
    · exact hws z hx
    · exact ih (childListOf L x) (fun c hc => childListOf_subset_keys L x c hc) z hzx

/-- Everything emitted below a worklist element is a reflexive descendant
of some worklist element. -/
lemma preord_ancestor (L : List SerializedNode) (h1 : (keysOf L).Nodup) :
    ∀ (d : Nat) (ws : List Int) (z : Int),
      z ∈ preord (childListOf L) d ws → ∃ w ∈ ws, AncEq L w z := by
  intro d
  induction d with
  | zero =>
    intro ws z hz
    simp [preord] at hz
  | succ d ih =>
    intro ws z hz
    rw [mem_preord_succ] at hz
    obtain ⟨x, hx, hzx⟩ := hz
    rcases hzx with rfl | hzx
    · exact ⟨z, hx, Or.inl rfl⟩
    · obtain ⟨c, hc, hcz⟩ := ih (childListOf L x) z hzx
      exact ⟨x, hx, Or.inr (anc_step L c x z (mem_childListOf_parent L h1 x c hc) hcz)⟩

/-- Everything in the subtree piece of `x` is a reflexive descendant of
`x`. -/
lemma mem_piece_ancEq (L : List SerializedNode) (h1 : (keysOf L).Nodup) (d : Nat) (x z : Int)
    (hz : z ∈ x :: preord (childListOf L) d (childListOf L x)) : AncEq L x z := by
  rcases List.mem_cons.mp hz with rfl | hmem
  · exact Or.inl rfl
  · obtain ⟨c, hc, hcz⟩ := preord_ancestor L h1 d (childListOf L x) z hmem
    exact Or.inr (anc_step L c x z (mem_childListOf_parent L h1 x c hc) hcz)

/-- Upgrading a pairwise relation using membership. -/
lemma pairwise_imp_mem {α : Type} {R S : α → α → Prop} :
    ∀ l : List α, (∀ a b, a ∈ l → b ∈ l → R a b → S a b) → l.Pairwise R → l.Pairwise S := by
  intro l
  induction l with
  | nil =>
    intro _ _
    exact List.Pairwise.nil
  | cons x tl ih =>
    intro himp hp
    rw [List.pairwise_cons] at hp ⊢
    refine ⟨?_, ih (fun a b ha hb => himp a b (List.mem_cons_of_mem _ ha) (List.mem_cons_of_mem _ hb)) hp.2⟩
    intro b hb
    exact himp x b (List.mem_cons_self _ _) (List.mem_cons_of_mem _ hb) (hp.1 b hb)

/-- A flat map over pieces with no duplicates inside a piece and disjoint
pieces is duplicate free. -/
lemma flatMap_nodup {α β : Type} (g : α → List β) :
    ∀ l : List α, (∀ x ∈ l, (g x).Nodup) →
      l.Pairwise (fun a b => ∀ z, z ∈ g a → z ∈ g b → False) → (l.flatMap g).Nodup := by
  intro l
  induction l with
  | nil =>
    intro _ _
    simp
  | cons x tl ih =>
    intro hall hpair
    rw [List.pairwise_cons] at hpair
    rw [List.flatMap_cons]
    apply List.Nodup.append (hall x (List.mem_cons_self _ _))
      (ih (fun a ha => hall a (List.mem_cons_of_mem _ ha)) hpair.2)
    intro z hz1 hz2
    obtain ⟨y, hy, hzy⟩ := List.mem_flatMap.mp hz2
    exact hpair.1 y hy z hz1 hzy

/-- Distinct siblings have disjoint reflexive-descendant sets. -/
lemma siblings_indep (L : List SerializedNode) (r : Int → Nat) (h1 : (keysOf L).Nodup)
    (h3 : ∀ nd ∈ L, ∀ p, nd.parentHashCode = some p → r p < r nd.hashCode)
    (x c1 c2 : Int) (hc1 : c1 ∈ childListOf L x) (hc2 : c2 ∈ childListOf L x) (hne : c1 ≠ c2)
    (z : Int) (hz1 : AncEq L c1 z) (hz2 : AncEq L c2 z) : False := by
  have hp1 : parentOf L c1 = some x := mem_childListOf_parent L h1 x c1 hc1
  have hp2 : parentOf L c2 = some x := mem_childListOf_parent L h1 x c2 hc2
  have key : ∀ a b : Int, parentOf L a = some x → parentOf L b = some x → Anc L b a → False := by
    intro a b hpa hpb hanc
    obtain ⟨k, hk⟩ := hanc
    have hsplit : iterParent L (k+1) a = iterParent L k x := by
      rw [show k + 1 = 1 + k by omega, iterParent_add L 1 k a]
      simp [iterParent, hpa]
    rw [hsplit] at hk
    have hbx : AncEq L b x := by
      cases k with
      | zero =>
        have hxb : x = b := by simpa [iterParent] using hk
        exact Or.inl hxb
      | succ k => exact Or.inr ⟨k, hk⟩
    have hle : r b ≤ r x := ancEq_rank L r h1 h3 b x hbx
    have hlt : r x < r b := parentOf_rank L r h1 h3 b x hpb
    omega
  rcases hz1 with rfl | ha1
  · rcases hz2 with rfl | ha2
    · exact hne rfl
    · exact key z c2 hp1 hp2 ha2
  · rcases hz2 with rfl | ha2
    · exact key z c1 hp2 hp1 ha1
    · rcases anc_comparable L c1 c2 z ha1 ha2 with h | h
      · rcases h with heq | hanc
        · exact hne heq.symm
        · exact key c2 c1 hp2 hp1 hanc
      · rcases h with heq | hanc
        · exact hne heq
        · exact key c1 c2 hp1 hp2 hanc

/-- Distinct roots have disjoint reflexive-descendant sets. -/
lemma roots_indep (L : List SerializedNode) (h1 : (keysOf L).Nodup)
    (x y : Int) (hx : x ∈ rootsOf L) (hy : y ∈ rootsOf L) (hne : x ≠ y)
    (z : Int) (hz1 : AncEq L x z) (hz2 : AncEq L y z) : False := by
  have hpx : parentOf L x = none := rootsOf_parent_none L h1 x hx
  have hpy : parentOf L y = none := rootsOf_parent_none L h1 y hy
  have key : ∀ a, parentOf L a = none → ∀ b, Anc L b a → False := by
    intro a hpa b hanc
    obtain ⟨k, hk⟩ := hanc
    have hnone : iterParent L (k+1) a = none := by
      rw [show k + 1 = 1 + k by omega, iterParent_add L 1 k a]
      simp [iterParent, hpa]
    rw [hnone] at hk
    cases hk
  rcases hz1 with rfl | ha1
  · rcases hz2 with rfl | ha2
    · exact hne rfl
    · exact key z hpx y ha2
  · rcases hz2 with rfl | ha2
    · exact key z hpy x ha1
    · rcases anc_comparable L x y z ha1 ha2 with h | h
      · rcases h with heq | hanc
        · exact hne heq.symm
        · exact key y hpy x hanc
      · rcases h with heq | hanc
        · exact hne heq
        · exact key x hpx y hanc

/-- The pre-order traversal emits no duplicates when the worklist is
duplicate free, consists of identity hashes, and has pairwise disjoint
reflexive-descendant sets. -/
lemma preord_nodup (L : List SerializedNode) (r : Int → Nat) (h1 : (keysOf L).Nodup)
    (h3 : ∀ nd ∈ L, ∀ p, nd.parentHashCode = some p → r p < r nd.hashCode) :
    ∀ (d : Nat) (ws : List Int), ws.Nodup → (∀ x ∈ ws, x ∈ keysOf L) →
      ws.Pairwise (fun x y => ∀ z, AncEq L x z → AncEq L y z → False) →
      (preord (childListOf L) d ws).Nodup := by
  intro d
  induction d with
  | zero =>
    intro ws _ _ _
    simp [preord]
  | succ d ih =>
    intro ws hnd hsub hpair
    show (ws.flatMap (fun x => x :: preord (childListOf L) d (childListOf L x))).Nodup
    apply flatMap_nodup
    · intro x hx
      rw [List.nodup_cons]
      constructor
      · intro hmem
        obtain ⟨c, hc, hcx⟩ := preord_ancestor L h1 d (childListOf L x) x hmem
        have hax : Anc L x x := anc_step L c x x (mem_childListOf_parent L h1 x c hc) hcx
        have := anc_rank L r h1 h3 x x hax
        omega
      · apply ih (childListOf L x) (childListOf_nodup L h1 x)
          (fun c hc => childListOf_subset_keys L x c hc)
        apply pairwise_imp_mem (childListOf L x)
          (fun a b ha hb hne => siblings_indep L r h1 h3 x a b ha hb hne)
        exact childListOf_nodup L h1 x
    · apply pairwise_imp_mem ws (fun a b _ _ hind => ?_) hpair
      intro z hz1 hz2
      exact hind z (mem_piece_ancEq L h1 d a z hz1) (mem_piece_ancEq L h1 d b z hz2)

/-- Every identity hash is emitted by the traversal from the roots, with
fuel one more than the length of a duplicate-free chain of its strict
ancestors. -/
lemma preord_complete (L : List SerializedNode) (r : Int → Nat) (h1 : (keysOf L).Nodup)
    (h2 : ∀ nd ∈ L, ∀ p, nd.parentHashCode = some p → p ∈ keysOf L)
    (h3 : ∀ nd ∈ L, ∀ p, nd.parentHashCode = some p → r p < r nd.hashCode) :
    ∀ h ∈ keysOf L, ∃ (d : Nat) (anc : List Int), anc.Nodup ∧
      (∀ a ∈ anc, a ∈ keysOf L ∧ Anc L a h) ∧ d = anc.length + 1 ∧
      h ∈ preord (childListOf L) d (rootsOf L) := by
  suffices H : ∀ n : Nat, ∀ h, h ∈ keysOf L → r h = n → ∃ (d : Nat) (anc : List Int),
      anc.Nodup ∧ (∀ a ∈ anc, a ∈ keysOf L ∧ Anc L a h) ∧ d = anc.length + 1 ∧
      h ∈ preord (childListOf L) d (rootsOf L) by
    intro h hk
    exact H (r h) h hk rfl
  intro n
  induction n using Nat.strong_induction_on with
  | _ n ih =>
    intro h hk hr
    cases hp : parentOf L h with
    | none =>
      have hroot : h ∈ rootsOf L := by
        obtain ⟨nd, hnd, hh⟩ := List.mem_map.mp hk
        rw [mem_rootsOf]
        refine ⟨nd, hnd, ?_, hh⟩
        rw [← parentOf_of_mem L h1 nd hnd, hh]
        exact hp
      refine ⟨1, [], List.nodup_nil, by simp, rfl, ?_⟩
      rw [mem_preord_succ]
      exact ⟨h, hroot, Or.inl rfl⟩
    | some p =>
      have hpk : p ∈ keysOf L := parentOf_mem_keys L h2 h p hp
      have hrank : r p < r h := parentOf_rank L r h1 h3 h p hp
      obtain ⟨dp, ancp, hnd, hanc, hlen, hmem⟩ := ih (r p) (by omega) p hpk rfl
      have hchild : h ∈ childListOf L p := childListOf_of_parent L h1 p h hk hp
      refine ⟨dp + 1, ancp ++ [p], ?_, ?_, ?_, ?_⟩
      · apply hnd.append (List.nodup_singleton p)
        intro a ha hap
        have hap2 : a = p := by simpa using hap
        subst hap2
        have hself := (hanc a ha).2
        have := anc_rank L r h1 h3 a a hself
        omega
      · intro a ha
        rcases List.mem_append.mp ha with h1a | h2a
        · obtain ⟨hak, haanc⟩ := hanc a h1a
          refine ⟨hak, ?_⟩
          obtain ⟨k, hk2⟩ := haanc
          refine ⟨k + 1, ?_⟩
          rw [show k + 1 + 1 = 1 + (k + 1) by omega, iterParent_add L 1 (k+1) h]
          have hstep1 : iterParent L 1 h = some p := by simp [iterParent, hp]
          rw [hstep1]
          exact hk2
        · have hap2 : a = p := by simpa using h2a
          subst hap2
          refine ⟨hpk, 0, ?_⟩
          simp [iterParent, hp]
      · rw [List.length_append]
        simp [hlen]
      · exact preord_push (childListOf L) dp (rootsOf L) p h hmem hchild

/-- A duplicate-free list contained in another list is no longer. -/
lemma nodup_subset_length {α : Type} [DecidableEq α] (l lp : List α) (hnd : l.Nodup)
    (hsub : ∀ a ∈ l, a ∈ lp) : l.length ≤ lp.length := by
  have hc1 : l.toFinset.card = l.length := List.toFinset_card_of_nodup hnd
  have hc2 : l.toFinset ⊆ lp.toFinset := by
    intro a ha
    rw [List.mem_toFinset] at ha ⊢
    exact hsub a ha
  calc l.length = l.toFinset.card := hc1.symm
    _ ≤ lp.toFinset.card := Finset.card_le_card hc2
    _ ≤ lp.length := List.toFinset_card_le lp

/-- Every identity hash is emitted by the traversal from the roots within
fuel equal to the number of nodes. -/
lemma preord_complete_keys (L : List SerializedNode) (r : Int → Nat) (h1 : (keysOf L).Nodup)
    (h2 : ∀ nd ∈ L, ∀ p, nd.parentHashCode = some p → p ∈ keysOf L)
    (h3 : ∀ nd ∈ L, ∀ p, nd.parentHashCode = some p → r p < r nd.hashCode)
    (h : Int) (hk : h ∈ keysOf L) :
    h ∈ preord (childListOf L) L.length (rootsOf L) := by
  obtain ⟨d, anc, hnd, hanc, hlen, hmem⟩ := preord_complete L r h1 h2 h3 h hk
  have hndh : (anc ++ [h]).Nodup := by
    apply hnd.append (List.nodup_singleton h)
    intro a ha hah
    have hah2 : a = h := by simpa using hah
    subst hah2
    have hself := (hanc a ha).2
    have := anc_rank L r h1 h3 a a hself
    omega
  have hsub : ∀ a ∈ anc ++ [h], a ∈ keysOf L := by
    intro a ha
    rcases List.mem_append.mp ha with h1a | h2a
    · exact (hanc a h1a).1
    · have hah2 : a = h := by simpa using h2a
      subst hah2
      exact hk
  have hle := nodup_subset_length (anc ++ [h]) (keysOf L) hndh hsub
  have hkl : (keysOf L).length = L.length := List.length_map L (fun nd => nd.hashCode)
  have hle2 : anc.length + 1 ≤ L.length := by
    rw [List.length_append, hkl] at hle
    simpa using hle
  have hd : d ≤ L.length := by omega
  exact preord_mono (childListOf L) d L.length hd (rootsOf L) h hmem

/-- The traversal of the child lists from the roots, with fuel the number
of nodes, is a permutation of the identity hashes. -/
lemma preord_perm_keys (L : List SerializedNode) (r : Int → Nat) (h1 : (keysOf L).Nodup)
    (h2 : ∀ nd ∈ L, ∀ p, nd.parentHashCode = some p → p ∈ keysOf L)
    (h3 : ∀ nd ∈ L, ∀ p, nd.parentHashCode = some p → r p < r nd.hashCode) :
    (preord (childListOf L) L.length (rootsOf L)).Perm (keysOf L) := by
  have hnd : (preord (childListOf L) L.length (rootsOf L)).Nodup := by
    apply preord_nodup L r h1 h3 L.length (rootsOf L) (rootsOf_nodup L h1)
      (fun x hx => rootsOf_subset_keys L x hx)
    apply pairwise_imp_mem (rootsOf L)
      (fun a b ha hb hne => roots_indep L h1 a b ha hb hne)
    exact rootsOf_nodup L h1
  rw [List.perm_ext_iff_of_nodup hnd h1]
  intro a
  constructor
  · exact preord_subset_keys L L.length (rootsOf L) (fun x hx => rootsOf_subset_keys L x hx) a
  · exact preord_complete_keys L r h1 h2 h3 a

/-- Elimination form of the boolean per-node hypothesis. -/
lemma option_all_elim (L : List SerializedNode) (P : Int → SerializedNode → Prop)
    [∀ p nd, Decidable (P p nd)]
    (h : ∀ nd ∈ L, nd.parentHashCode.all (fun p => decide (P p nd)) = true) :
    ∀ nd ∈ L, ∀ p, nd.parentHashCode = some p → P p nd := by
  intro nd hnd p hp
  have h2 := h nd hnd
  rw [hp] at h2
  simpa using h2

/-- The children of the built forest agree with the input child lists
everywhere (under consistency, absent keys have no children on either
side). -/
lemma buildTree_childrenOf_eq (L : List SerializedNode) (h1 : (keysOf L).Nodup) (hne : L ≠ [])
    (h2 : ∀ nd ∈ L, ∀ p, nd.parentHashCode = some p → p ∈ keysOf L) :
    childrenOf (buildTreeFromFlatData L) = childListOf L := by
  funext q
  by_cases hq : q ∈ keysOf L
  · exact buildTree_childrenOf_mem L h1 hne q hq
  · rw [buildTree_childrenOf_not_mem L h1 hne q hq]
    symm
    rw [List.eq_nil_iff_forall_not_mem]
    intro c hc
    obtain ⟨nd, hnd, hpar, _⟩ := (mem_childListOf L q c).mp hc
    exact hq (h2 nd hnd q hpar)

/-- Restoring a hash permutation to the carried nodes. -/
lemma filterMap_map_eq {α β : Type} (l : List α) (f : α → β) (g : β → Option α)
    (h : ∀ a ∈ l, g (f a) = some a) : (l.map f).filterMap g = l := by
  induction l with
  | nil => rfl
  | cons x tl ih =>
    rw [List.map_cons, List.filterMap_cons, h x (List.mem_cons_self x tl)]
    rw [ih (fun a ha => h a (List.mem_cons_of_mem x ha))]

/-- C3 counterexample: a two-node parent cycle.  Identity hashes are
distinct and every parent hash resolves, yet the built forest has no roots
and no reachable nodes, so its node count is not the input length. -/
theorem c3_counterexample :
    (keysOf [⟨"node_1", 1, some 2, "", "", "", 1, 1, 1, 1, 0, []⟩,
             ⟨"node_2", 2, some 1, "", "", "", 1, 1, 1, 1, 0, []⟩]).Nodup ∧
    ([⟨"node_1", 1, some 2, "", "", "", 1, 1, 1, 1, 0, []⟩,
      ⟨"node_2", 2, some 1, "", "", "", 1, 1, 1, 1, 0, []⟩] : List SerializedNode).all
      (fun nd => nd.parentHashCode.all (fun p => decide (p ∈ keysOf
        [⟨"node_1", 1, some 2, "", "", "", 1, 1, 1, 1, 0, []⟩,
         ⟨"node_2", 2, some 1, "", "", "", 1, 1, 1, 1, 0, []⟩]))) = true ∧
    forestSize (buildTreeFromFlatData
      [⟨"node_1", 1, some 2, "", "", "", 1, 1, 1, 1, 0, []⟩,
       ⟨"node_2", 2, some 1, "", "", "", 1, 1, 1, 1, 0, []⟩]) ≠
      ([⟨"node_1", 1, some 2, "", "", "", 1, 1, 1, 1, 0, []⟩,
        ⟨"node_2", 2, some 1, "", "", "", 1, 1, 1, 1, 0, []⟩] : List SerializedNode).length := by
  refine ⟨by decide, by decide, by decide⟩

/-- C3 amended: for a hash-distinct, parent-consistent and acyclic input
(acyclicity witnessed by a rank function that strictly decreases toward
parents), the built forest reaches exactly as many nodes from its roots as
the input length, and its roots are exactly the hashes of the input nodes
with no parent reference, in input order. -/
theorem c3_forest_count (L : List SerializedNode) (r : Int → Nat)
    (h1 : (keysOf L).Nodup)
    (h2b : ∀ nd ∈ L, nd.parentHashCode.all (fun p => decide (p ∈ keysOf L)) = true)
    (h3b : ∀ nd ∈ L, nd.parentHashCode.all (fun p => decide (r p < r nd.hashCode)) = true) :
    forestSize (buildTreeFromFlatData L) = L.length ∧
    (buildTreeFromFlatData L).roots =
      (L.filter (fun nd => nd.parentHashCode.isNone)).map (fun nd => nd.hashCode) := by
  have h2 : ∀ nd ∈ L, ∀ p, nd.parentHashCode = some p → p ∈ keysOf L :=
    option_all_elim L (fun p _ => p ∈ keysOf L) h2b
  have h3 : ∀ nd ∈ L, ∀ p, nd.parentHashCode = some p → r p < r nd.hashCode :=
    option_all_elim L (fun p nd => r p < r nd.hashCode) h3b
  by_cases hne : L = []
  · subst hne
    exact ⟨rfl, rfl⟩
  · constructor
    · unfold forestSize preorderHashes
      rw [buildTree_childrenOf_eq L h1 hne h2, buildTree_roots L h1 hne,
        buildTree_nodeMap L h1 hne, List.length_map]
      have hperm := preord_perm_keys L r h1 h2 h3
      rw [hperm.length_eq]
      exact List.length_map L (fun nd => nd.hashCode)
    · exact buildTree_roots L h1 hne

/-- Witness for C3 at a concrete three-node consistent acyclic input. -/
theorem c3_witness :
    (keysOf [⟨"node_1", 1, none, "", "", "", 1, 1, 1, 1, 0, []⟩,
             ⟨"node_2", 2, some 1, "", "", "", 1, 1, 1, 1, 0, []⟩,
             ⟨"node_3", 3, some 2, "", "", "", 1, 1, 1, 1, 0, []⟩]).Nodup ∧
    forestSize (buildTreeFromFlatData
      [⟨"node_1", 1, none, "", "", "", 1, 1, 1, 1, 0, []⟩,
       ⟨"node_2", 2, some 1, "", "", "", 1, 1, 1, 1, 0, []⟩,
       ⟨"node_3", 3, some 2, "", "", "", 1, 1, 1, 1, 0, []⟩]) =
      ([⟨"node_1", 1, none, "", "", "", 1, 1, 1, 1, 0, []⟩,
        ⟨"node_2", 2, some 1, "", "", "", 1, 1, 1, 1, 0, []⟩,
        ⟨"node_3", 3, some 2, "", "", "", 1, 1, 1, 1, 0, []⟩] : List SerializedNode).length :=
  ⟨by decide,
   (c3_forest_count
     [⟨"node_1", 1, none, "", "", "", 1, 1, 1, 1, 0, []⟩,
      ⟨"node_2", 2, some 1, "", "", "", 1, 1, 1, 1, 0, []⟩,
      ⟨"node_3", 3, some 2, "", "", "", 1, 1, 1, 1, 0, []⟩]
     (fun h => h.toNat) (by decide) (by decide) (by decide)).1⟩

/-- C6 counterexample: the two-node parent cycle again.  The input is
hash-distinct and parent-consistent, yet the pre-order flattening of the
built forest is empty, so it is not a permutation of the input. -/
theorem c6_counterexample :
    (keysOf [⟨"node_1", 1, some 2, "", "", "", 1, 1, 1, 1, 0, []⟩,
             ⟨"node_2", 2, some 1, "", "", "", 1, 1, 1, 1, 0, []⟩]).Nodup ∧
    ([⟨"node_1", 1, some 2, "", "", "", 1, 1, 1, 1, 0, []⟩,
      ⟨"node_2", 2, some 1, "", "", "", 1, 1, 1, 1, 0, []⟩] : List SerializedNode).all
      (fun nd => nd.parentHashCode.all (fun p => decide (p ∈ keysOf
        [⟨"node_1", 1, some 2, "", "", "", 1, 1, 1, 1, 0, []⟩,
         ⟨"node_2", 2, some 1, "", "", "", 1, 1, 1, 1, 0, []⟩]))) = true ∧
    ¬ (preorderNodes (buildTreeFromFlatData
        [⟨"node_1", 1, some 2, "", "", "", 1, 1, 1, 1, 0, []⟩,
         ⟨"node_2", 2, some 1, "", "", "", 1, 1, 1, 1, 0, []⟩])).Perm
      [⟨"node_1", 1, some 2, "", "", "", 1, 1, 1, 1, 0, []⟩,
       ⟨"node_2", 2, some 1, "", "", "", 1, 1, 1, 1, 0, []⟩] := by
  refine ⟨by decide, by decide, ?_⟩
  intro hperm
  have hlen := hperm.length_eq
  have h0 : (preorderNodes (buildTreeFromFlatData
      [⟨"node_1", 1, some 2, "", "", "", 1, 1, 1, 1, 0, []⟩,
       ⟨"node_2", 2, some 1, "", "", "", 1, 1, 1, 1, 0, []⟩])).length = 0 := rfl
  rw [h0] at hlen
  exact absurd hlen (by decide)

/-- C6 amended: for a hash-distinct, parent-consistent and acyclic input,
flattening the built forest back in pre-order yields a permutation of the
input list (so in particular the same set of nodes: none created, none
lost). -/
theorem c6_roundtrip (L : List SerializedNode) (r : Int → Nat)
    (h1 : (keysOf L).Nodup)
    (h2b : ∀ nd ∈ L, nd.parentHashCode.all (fun p => decide (p ∈ keysOf L)) = true)
    (h3b : ∀ nd ∈ L, nd.parentHashCode.all (fun p => decide (r p < r nd.hashCode)) = true) :
    (preorderNodes (buildTreeFromFlatData L)).Perm L := by
  have h2 : ∀ nd ∈ L, ∀ p, nd.parentHashCode = some p → p ∈ keysOf L :=
    option_all_elim L (fun p _ => p ∈ keysOf L) h2b
  have h3 : ∀ nd ∈ L, ∀ p, nd.parentHashCode = some p → r p < r nd.hashCode :=
    option_all_elim L (fun p nd => r p < r nd.hashCode) h3b
  by_cases hne : L = []
  · subst hne
    exact List.Perm.refl _
  · unfold preorderNodes preorderHashes
    rw [buildTree_childrenOf_eq L h1 hne h2, buildTree_roots L h1 hne,
      buildTree_nodeMap L h1 hne, List.length_map]
    have hperm := preord_perm_keys L r h1 h2 h3
    have hfm := hperm.filterMap (jsMapGet (L.map (fun nd => (nd.hashCode, nd))))
    have hkeys : (keysOf L).filterMap (jsMapGet (L.map (fun nd => (nd.hashCode, nd)))) = L := by
      apply filterMap_map_eq L (fun nd => nd.hashCode)
        (jsMapGet (L.map (fun nd => (nd.hashCode, nd))))
      intro nd hnd
      exact jsMapGet_pairs L h1 nd hnd
    rw [hkeys] at hfm
    exact hfm

/-- Witness for C6 at the same concrete shape of input (distinct nodes). -/
theorem c6_witness :
    (keysOf [⟨"node_1", 4, none, "", "", "", 1, 1, 1, 1, 0, []⟩,
             ⟨"node_2", 5, some 4, "", "", "", 1, 1, 1, 1, 0, []⟩,
             ⟨"node_3", 6, some 4, "", "", "", 1, 1, 1, 1, 0, []⟩]).Nodup ∧
    (preorderNodes (buildTreeFromFlatData
      [⟨"node_1", 4, none, "", "", "", 1, 1, 1, 1, 0, []⟩,
       ⟨"node_2", 5, some 4, "", "", "", 1, 1, 1, 1, 0, []⟩,
       ⟨"node_3", 6, some 4, "", "", "", 1, 1, 1, 1, 0, []⟩])).Perm
      [⟨"node_1", 4, none, "", "", "", 1, 1, 1, 1, 0, []⟩,
       ⟨"node_2", 5, some 4, "", "", "", 1, 1, 1, 1, 0, []⟩,
       ⟨"node_3", 6, some 4, "", "", "", 1, 1, 1, 1, 0, []⟩] :=
  ⟨by decide,
   c6_roundtrip
     [⟨"node_1", 4, none, "", "", "", 1, 1, 1, 1, 0, []⟩,
      ⟨"node_2", 5, some 4, "", "", "", 1, 1, 1, 1, 0, []⟩,
      ⟨"node_3", 6, some 4, "", "", "", 1, 1, 1, 1, 0, []⟩]
     (fun h => h.toNat) (by decide) (by decide) (by decide)⟩
